import Mathlib

/-!
# Smart pointers: `SharedPtr<T>` (shared_ptr/shared_ptr.h)

A shallow embedding of the reference-counted pointer of the repository.

* A raw pointer `T*` is an `Option Nat`: `none` is `nullptr`, `some v` names the
  heap allocation `v`.
* A `Node<T>*` is an `Option Nat`: `none` is `nullptr`, `some a` is the address of
  a control block; `new Node<T>` always returns an address never used before.
* Every `SharedPtr<T>` object (variables and temporaries alike) has an identity,
  its index in `Mem.objs`, so that `p = p`, `p = std::move(p)` and `p.Swap(p)` can
  be expressed.
* `delete ptr` and `delete node_` are recorded in two logs, so "freed exactly
  once" is a statement about the number of occurrences in a log.
* A member function called on an object that is not alive, or reading through a
  `node_` whose block was deleted, has undefined behaviour: the embedding
  returns `none`.
-/

namespace SharedPtr

/-- Largest value of `size_t` (64 bits). -/
def SIZE_MAX : Nat := 2 ^ 64 - 1

/-- The operation `++c` on a `size_t`. -/
def incr (c : Nat) : Nat := (c + 1) % 2 ^ 64

/-- The operation `--c` on a `size_t`; it wraps around below zero. -/
def decr (c : Nat) : Nat := (c + 2 ^ 64 - 1) % 2 ^ 64

/-- The control block `template <class T> struct Node { T* ptr; size_t strong_counter; }`. -/
structure Node where
  ptr : Option Nat
  strong_counter : Nat
deriving DecidableEq, Repr

/-- The program memory as far as `SharedPtr` is concerned.
* `nodes[a]` is the control block at address `a`, `none` once it was deleted;
* `objs[i]` is the field `node_` of the `SharedPtr` object `i`, `none` once the
  object was destroyed;
* `freedPtrs` lists the non-null values handed to `delete ptr`, in order;
* `freedNodes` lists the addresses handed to `delete node_`, in order. -/
structure Mem where
  nodes : List (Option Node)
  objs : List (Option (Option Nat))
  freedPtrs : List Nat
  freedNodes : List Nat
deriving DecidableEq, Repr

/-- The memory before anything was constructed. -/
def Mem.empty : Mem := ⟨[], [], [], []⟩

/-- Read `this->node_`; `none` when `this` is not a live object. -/
def Mem.node_ (m : Mem) (this : Nat) : Option (Option Nat) := (m.objs[this]?).join

/-- Write `this->node_ = p`. -/
def Mem.setNode_ (m : Mem) (this : Nat) (p : Option Nat) : Mem :=
  { m with objs := m.objs.set this (some p) }

/-- Read the control block at address `a`; `none` when there is no live block there. -/
def Mem.load (m : Mem) (a : Nat) : Option Node := (m.nodes[a]?).join

/-- Overwrite the control block at address `a`. -/
def Mem.store (m : Mem) (a : Nat) (n : Node) : Mem :=
  { m with nodes := m.nodes.set a (some n) }

/-- Number of `SharedPtr` objects alive. -/
def Mem.liveObjs (m : Mem) : Nat := m.objs.countP Option.isSome

/-- The memory with one more object, of identity `m.objs.length`. -/
def Mem.pushObj (m : Mem) (p : Option Nat) : Mem := { m with objs := m.objs ++ [some p] }

/-- Storage for one more `SharedPtr` object whose `node_` is initialised to `p`.
An object occupies memory of a 64-bit address space, so at most `SIZE_MAX`
objects are alive at a time; beyond that there is no execution. -/
def Mem.newObj (m : Mem) (p : Option Nat) : Option (Mem × Nat) :=
  if m.liveObjs < SIZE_MAX then some (m.pushObj p, m.objs.length) else none

/-- The memory with one more control block, at the fresh address `m.nodes.length`. -/
def Mem.pushNode (m : Mem) (n : Node) : Mem := { m with nodes := m.nodes ++ [some n] }

/-- The expression `new Node<T>{ptr, c}`: a block at a fresh address. -/
def Mem.newNode (m : Mem) (n : Node) : Mem × Nat := (m.pushNode n, m.nodes.length)

/-- The statement `delete ptr`; deleting `nullptr` does nothing. -/
def Mem.deletePtr (m : Mem) : Option Nat → Mem
  | none => m
  | some v => { m with freedPtrs := m.freedPtrs ++ [v] }

/-- The statement `delete node_` for the block at address `a`. -/
def Mem.deleteNode (m : Mem) (a : Nat) : Mem :=
  { m with nodes := m.nodes.set a none, freedNodes := m.freedNodes ++ [a] }

/-- End of the lifetime of object `this` (after its destructor body ran). -/
def Mem.endObj (m : Mem) (this : Nat) : Mem :=
  { m with objs := m.objs.set this none }

/-- `SharedPtr() : node_(nullptr)`. Returns the memory and the new object. -/
def ctor (m : Mem) : Option (Mem × Nat) := m.newObj none

/-- `SharedPtr(std::nullptr_t) : SharedPtr()`. -/
def ctorNull (m : Mem) : Option (Mem × Nat) := ctor m

/-- `explicit SharedPtr(T* ptr) : node_(new Node<T>{ptr, 1})`. -/
def ctorRaw (m : Mem) (ptr : Option Nat) : Option (Mem × Nat) :=
  let (m1, a) := m.newNode ⟨ptr, 1⟩
  m1.newObj (some a)

/-- `SharedPtr(SharedPtr&& other) : node_(other.node_) { other.node_ = nullptr; }`. -/
def ctorMove (m : Mem) (other : Nat) : Option (Mem × Nat) := do
  let p ← m.node_ other
  let (m1, this) ← m.newObj p
  some (m1.setNode_ other none, this)

/-- `SharedPtr(const SharedPtr& other) : node_(other.node_)
    { if (node_ != nullptr) ++(node_->strong_counter); }`. -/
def ctorCopy (m : Mem) (other : Nat) : Option (Mem × Nat) := do
  let p ← m.node_ other
  let (m1, this) ← m.newObj p
  match p with
  | none => some (m1, this)
  | some a => do
    let n ← m1.load a
    some (m1.store a { n with strong_counter := incr n.strong_counter }, this)

/-- `T* Release()`. Returns the memory and the returned raw pointer. -/
def Release (m : Mem) (this : Nat) : Option (Mem × Option Nat) := do
  let node_ ← m.node_ this
  match node_ with
  | none => some (m, none)
  | some a => do
    let n ← m.load a
    let ptr := n.ptr
    let m1 := m.store a { n with strong_counter := decr n.strong_counter }
    let n1 ← m1.load a
    let m2 := if n1.strong_counter = 0 then (m1.deletePtr ptr).deleteNode a else m1
    some (m2.setNode_ this none, ptr)

/-- `SharedPtr& operator=(SharedPtr&& other)`:
    `Release(); node_ = other.node_; other.node_ = nullptr;`. -/
def assignMove (m : Mem) (this other : Nat) : Option Mem := do
  let (m1, _) ← Release m this
  let p ← m1.node_ other
  let m2 := m1.setNode_ this p
  some (m2.setNode_ other none)

/-- `void Swap(SharedPtr<T>& other)`:
    `auto tmp = node_; node_ = other.node_; other.node_ = tmp;`. -/
def Swap (m : Mem) (this other : Nat) : Option Mem := do
  let tmp ← m.node_ this
  let p ← m.node_ other
  let m1 := m.setNode_ this p
  some (m1.setNode_ other tmp)

/-- `~SharedPtr() { Release(); }`, after which the object is gone. -/
def dtor (m : Mem) (this : Nat) : Option Mem := do
  let (m1, _) ← Release m this
  some (m1.endObj this)

/-- `SharedPtr& operator=(const SharedPtr& other)`:
    `SharedPtr tmp = other; Swap(tmp);`, then `tmp` goes out of scope. -/
def assignCopy (m : Mem) (this other : Nat) : Option Mem := do
  let (m1, tmp) ← ctorCopy m other
  let m2 ← Swap m1 this tmp
  dtor m2 tmp

/-- `void Reset() { SharedPtr().Swap(*this); }`; the temporary dies at the end of
the statement. -/
def Reset (m : Mem) (this : Nat) : Option Mem := do
  let (m1, t) ← ctor m
  let m2 ← Swap m1 t this
  dtor m2 t

/-- `void Reset(T* ptr) { SharedPtr(ptr).Swap(*this); }`. -/
def ResetRaw (m : Mem) (this : Nat) (ptr : Option Nat) : Option Mem := do
  let (m1, t) ← ctorRaw m ptr
  let m2 ← Swap m1 t this
  dtor m2 t

/-- `T* Get() const { return (node_ == nullptr) ? nullptr : node_->ptr; }`. -/
def Get (m : Mem) (this : Nat) : Option (Option Nat) := do
  let node_ ← m.node_ this
  match node_ with
  | none => some none
  | some a => do
    let n ← m.load a
    some n.ptr

/-- `explicit operator bool() const { return node_; }`. -/
def operatorBool (m : Mem) (this : Nat) : Option Bool := do
  let node_ ← m.node_ this
  some node_.isSome

/-- `T UseCount() const { return node_ == nullptr ? 0 : node_->strong_counter; }`.
The conditional has type `size_t`; the return statement converts it to the
element type `T`, and `ofSizeT` is that conversion. -/
def UseCount {τ : Type} (ofSizeT : Nat → τ) (m : Mem) (this : Nat) : Option τ := do
  let node_ ← m.node_ this
  match node_ with
  | none => some (ofSizeT 0)
  | some a => do
    let n ← m.load a
    some (ofSizeT n.strong_counter)

/-- The public operations that change the memory. -/
inductive Op where
  | ctor
  | ctorNull
  | ctorRaw (ptr : Option Nat)
  | ctorMove (other : Nat)
  | ctorCopy (other : Nat)
  | assignMove (this other : Nat)
  | assignCopy (this other : Nat)
  | Release (this : Nat)
  | Reset (this : Nat)
  | ResetRaw (this : Nat) (ptr : Option Nat)
  | Swap (this other : Nat)
  | dtor (this : Nat)
deriving DecidableEq, Repr

/-- One public operation. -/
def step (m : Mem) : Op → Option Mem
  | .ctor => (ctor m).map Prod.fst
  | .ctorNull => (ctorNull m).map Prod.fst
  | .ctorRaw ptr => (ctorRaw m ptr).map Prod.fst
  | .ctorMove other => (ctorMove m other).map Prod.fst
  | .ctorCopy other => (ctorCopy m other).map Prod.fst
  | .assignMove this other => assignMove m this other
  | .assignCopy this other => assignCopy m this other
  | .Release this => (Release m this).map Prod.fst
  | .Reset this => Reset m this
  | .ResetRaw this ptr => ResetRaw m this ptr
  | .Swap this other => Swap m this other
  | .dtor this => dtor m this

/-- A finite sequence of public operations, left to right. -/
def run (m : Mem) : List Op → Option Mem
  | [] => some m
  | op :: ops => (step m op).bind fun m1 => run m1 ops

/-- The memories the public operations can produce, starting with no pointers. -/
def Reachable (m : Mem) : Prop := ∃ ops : List Op, run Mem.empty ops = some m

/-- Number of live `SharedPtr` objects whose `node_` is the block at address `a`. -/
def Mem.refs (m : Mem) (a : Nat) : Nat := m.objs.count (some (some a))

/-- The live `SharedPtr` objects whose `node_` is the block at address `a`. -/
def Mem.owners (m : Mem) (a : Nat) : List Nat :=
  (List.range m.objs.length).filter fun i => m.node_ i = some (some a)

/-- Well-formed memory: the inductive invariant of the public operations. -/
structure WF (m : Mem) : Prop where
  counts : ∀ a n, m.load a = some n → n.strong_counter = m.refs a
  owned : ∀ a n, m.load a = some n → 0 < m.refs a
  nodangling : ∀ a, 0 < m.refs a → ∃ n, m.load a = some n
  cap : m.liveObjs ≤ SIZE_MAX

/-- The non-null value held by the live control block at address `b`, if any. -/
def Mem.ptrAt (m : Mem) (b : Nat) : Option Nat := (m.load b).bind Node.ptr

/-- The raw pointer `v` is a fresh allocation: it was never handed to `delete` and
no live control block holds it. -/
def Mem.fresh (m : Mem) (v : Nat) : Prop :=
  v ∉ m.freedPtrs ∧ ∀ e ∈ m.nodes, e.bind Node.ptr ≠ some v

instance (m : Mem) (v : Nat) : Decidable (m.fresh v) := by
  unfold Mem.fresh
  infer_instance

/-- The raw pointer an operation receives from its caller. -/
def Op.rawArg : Op → Option Nat
  | .ctorRaw ptr => ptr
  | .ResetRaw _ ptr => ptr
  | _ => none

/-- Along the run from `m`, every raw pointer handed to a constructor or to
`Reset` is null or, at that moment, a fresh allocation. -/
def freshArgs (m : Mem) : List Op → Bool
  | [] => true
  | op :: ops =>
    (match op.rawArg with
      | none => true
      | some v => decide (m.fresh v)) &&
    (match step m op with
      | none => true
      | some m1 => freshArgs m1 ops)

/-- Ownership invariant: live blocks hold distinct values, none of them freed, and
no value was freed twice. -/
structure Own (m : Mem) : Prop where
  uniq : ∀ a b v, m.ptrAt a = some v → m.ptrAt b = some v → a = b
  nofreed : ∀ a v, m.ptrAt a = some v → v ∉ m.freedPtrs
  nodup : m.freedPtrs.Nodup

/-- The memory `Release` leaves behind when `this` references block `a` holding `n`. -/
def releasedMem (m : Mem) (this a : Nat) (n : Node) : Mem :=
  (if n.strong_counter = 1 then ((m.store a ⟨n.ptr, 0⟩).deletePtr n.ptr).deleteNode a
   else m.store a ⟨n.ptr, n.strong_counter - 1⟩).setNode_ this none

/-- The memory after copy-constructing from an owner of block `a` holding `n`. -/
def copiedMem (m : Mem) (a : Nat) (n : Node) : Mem :=
  (m.pushObj (some a)).store a ⟨n.ptr, n.strong_counter + 1⟩

/-- Element types `T` for which `T UseCount()` can be instantiated and whose
values are numbers: `bool` and the integer types of a given width. -/
inductive ElemTy where
  | bool
  | unsignedInt (bits : Nat)
  | signedInt (bits : Nat)
deriving DecidableEq, Repr

/-- The implicit conversion from `size_t` to `T` that the `return` statement of
`T UseCount()` performs, given as the number the resulting `T` stands for:
any non-zero count becomes `true` (1) for `bool`, and integer types keep the
count modulo `2 ^ bits`. -/
def ElemTy.ofSizeT : ElemTy → Nat → Int
  | .bool, c => if c = 0 then 0 else 1
  | .unsignedInt w, c => ((c % 2 ^ w : Nat) : Int)
  | .signedInt w, c =>
    if c % 2 ^ w < 2 ^ (w - 1) then ((c % 2 ^ w : Nat) : Int)
    else ((c % 2 ^ w : Nat) : Int) - ((2 ^ w : Nat) : Int)

/-- The operation hands a null `T*` to `SharedPtr(T*)` or to `Reset(T*)`. -/
def Op.nullRaw : Op → Bool
  | .ctorRaw none => true
  | .ResetRaw _ none => true
  | _ => false

/-- No live control block holds a null pointer. -/
def NonNull (m : Mem) : Prop := ∀ a n, m.load a = some n → n.ptr ≠ none

end SharedPtr

/-!
# Smart pointers: `UniquePtr<T>` (unique_ptr/unique_ptr.h)

The embedding follows the one of `SharedPtr`: a raw pointer is an `Option Nat`,
every `UniquePtr<T>` object has an identity (its index in `Mem.objs`), `delete`
of a non-null pointer is recorded in a log, and a member function called on an
object that is not alive returns `none`.
-/

namespace UniquePtr

/-- The program memory as far as `UniquePtr` is concerned.
* `objs[i]` is the field `ptr_` of the `UniquePtr` object `i`, `none` once the
  object was destroyed;
* `freed` lists the non-null values handed to `delete`, in order. -/
structure Mem where
  objs : List (Option (Option Nat))
  freed : List Nat
deriving DecidableEq, Repr

/-- The memory before anything was constructed. -/
def Mem.empty : Mem := ⟨[], []⟩

/-- Read `this->ptr_`; `none` when `this` is not a live object. -/
def Mem.ptr_ (m : Mem) (this : Nat) : Option (Option Nat) := (m.objs[this]?).join

/-- Write `this->ptr_ = p`. -/
def Mem.setPtr_ (m : Mem) (this : Nat) (p : Option Nat) : Mem :=
  { m with objs := m.objs.set this (some p) }

/-- Storage for one more `UniquePtr` object whose `ptr_` is initialised to `p`;
returns the memory and the new object. Nothing in `UniquePtr` counts objects, so
no bound on their number is needed. -/
def Mem.newObj (m : Mem) (p : Option Nat) : Mem × Nat :=
  ({ m with objs := m.objs ++ [some p] }, m.objs.length)

/-- The statement `delete p`; deleting `nullptr` does nothing. -/
def Mem.deletePtr (m : Mem) : Option Nat → Mem
  | none => m
  | some v => { m with freed := m.freed ++ [v] }

/-- End of the lifetime of object `this` (after its destructor body ran). -/
def Mem.endObj (m : Mem) (this : Nat) : Mem :=
  { m with objs := m.objs.set this none }

/-- `explicit UniquePtr(T* pointer = nullptr) : ptr_{pointer}`. -/
def ctor (m : Mem) (pointer : Option Nat) : Mem × Nat := m.newObj pointer

/-- `UniquePtr(UniquePtr&& other) : ptr_(other.ptr_) { other.ptr_ = nullptr; }`. -/
def ctorMove (m : Mem) (other : Nat) : Option (Mem × Nat) := do
  let p ← m.ptr_ other
  let (m1, this) := m.newObj p
  some (m1.setPtr_ other none, this)

/-- `UniquePtr& operator=(UniquePtr&& other)`:
    `if (this != &other) { delete ptr_; ptr_ = other.ptr_; other.ptr_ = nullptr; }`. -/
def assignMove (m : Mem) (this other : Nat) : Option Mem := do
  let p ← m.ptr_ this
  if this ≠ other then
    let m1 := m.deletePtr p
    let q ← m1.ptr_ other
    let m2 := m1.setPtr_ this q
    some (m2.setPtr_ other none)
  else some m

/-- `T* Get() const { return ptr_; }`. -/
def Get (m : Mem) (this : Nat) : Option (Option Nat) := m.ptr_ this

/-- `T* Release() { T* tmp = ptr_; ptr_ = nullptr; return tmp; }`. -/
def Release (m : Mem) (this : Nat) : Option (Mem × Option Nat) := do
  let tmp ← m.ptr_ this
  some (m.setPtr_ this none, tmp)

/-- `void Reset(T* ptr = nullptr) { T* old = ptr_; ptr_ = ptr; delete old; }`. -/
def Reset (m : Mem) (this : Nat) (ptr : Option Nat) : Option Mem := do
  let old ← m.ptr_ this
  let m1 := m.setPtr_ this ptr
  some (m1.deletePtr old)

/-- `explicit operator bool() const { return ptr_; }`. -/
def operatorBool (m : Mem) (this : Nat) : Option Bool := do
  let p ← m.ptr_ this
  some p.isSome

/-- `void Swap(UniquePtr<T>& other)`:
    `auto tmp = ptr_; ptr_ = other.ptr_; other.ptr_ = tmp;`. -/
def Swap (m : Mem) (this other : Nat) : Option Mem := do
  let tmp ← m.ptr_ this
  let q ← m.ptr_ other
  let m1 := m.setPtr_ this q
  some (m1.setPtr_ other tmp)

/-- `~UniquePtr() { delete ptr_; }`, after which the object is gone. -/
def dtor (m : Mem) (this : Nat) : Option Mem := do
  let p ← m.ptr_ this
  some ((m.deletePtr p).endObj this)

/-- The public operations that change the memory. -/
inductive Op where
  | ctor (pointer : Option Nat)
  | ctorMove (other : Nat)
  | assignMove (this other : Nat)
  | Release (this : Nat)
  | Reset (this : Nat) (ptr : Option Nat)
  | Swap (this other : Nat)
  | dtor (this : Nat)
deriving DecidableEq, Repr

/-- One public operation. -/
def step (m : Mem) : Op → Option Mem
  | .ctor pointer => some (ctor m pointer).1
  | .ctorMove other => (ctorMove m other).map Prod.fst
  | .assignMove this other => assignMove m this other
  | .Release this => (Release m this).map Prod.fst
  | .Reset this ptr => Reset m this ptr
  | .Swap this other => Swap m this other
  | .dtor this => dtor m this

/-- A finite sequence of public operations, left to right. -/
def run (m : Mem) : List Op → Option Mem
  | [] => some m
  | op :: ops => (step m op).bind fun m1 => run m1 ops

/-- The raw pointer `v` is a fresh allocation: it was never handed to `delete` and
no live `UniquePtr` holds it. -/
def Mem.fresh (m : Mem) (v : Nat) : Prop :=
  v ∉ m.freed ∧ ∀ e ∈ m.objs, e ≠ some (some v)

instance (m : Mem) (v : Nat) : Decidable (m.fresh v) := by
  unfold Mem.fresh
  infer_instance

/-- The raw pointer an operation receives from its caller. -/
def Op.rawArg : Op → Option Nat
  | .ctor pointer => pointer
  | .Reset _ ptr => ptr
  | _ => none

/-- Along the run from `m`, every raw pointer handed to the constructor or to
`Reset` is null or, at that moment, a fresh allocation. -/
def freshArgs (m : Mem) : List Op → Bool
  | [] => true
  | op :: ops =>
    (match op.rawArg with
      | none => true
      | some v => decide (m.fresh v)) &&
    (match step m op with
      | none => true
      | some m1 => freshArgs m1 ops)

/-- Exclusive ownership: live objects hold distinct values, none of them freed, and
no value was freed twice. -/
structure Excl (m : Mem) : Prop where
  uniq : ∀ i j v, m.ptr_ i = some (some v) → m.ptr_ j = some (some v) → i = j
  nofreed : ∀ i v, m.ptr_ i = some (some v) → v ∉ m.freed
  nodup : m.freed.Nodup

end UniquePtr

namespace SharedPtr

/-! ## Views of the memory after a primitive action -/

section views

variable (m : Mem)

theorem node__lt {i : Nat} {q : Option Nat} (h : m.node_ i = some q) : i < m.objs.length := by
  unfold Mem.node_ at h
  by_contra hl
  rw [List.getElem?_eq_none (Nat.le_of_not_lt hl)] at h
  simp at h

theorem load_lt {a : Nat} {n : Node} (h : m.load a = some n) : a < m.nodes.length := by
  unfold Mem.load at h
  by_contra hl
  rw [List.getElem?_eq_none (Nat.le_of_not_lt hl)] at h
  simp at h

theorem node__setNode_ (i j : Nat) (p : Option Nat) (hi : i < m.objs.length) :
    (m.setNode_ i p).node_ j = if j = i then some p else m.node_ j := by
  unfold Mem.node_ Mem.setNode_
  by_cases h : j = i
  · subst h
    simp [hi, List.getElem?_set]
  · have h2 : i ≠ j := fun e => h e.symm
    simp [h, List.getElem?_set_ne h2]

theorem refs_setNode_ (i a : Nat) (p : Option Nat) (hi : i < m.objs.length) :
    (m.setNode_ i p).refs a
      = m.refs a - (if m.node_ i = some (some a) then 1 else 0)
          + (if p = some a then 1 else 0) := by
  unfold Mem.refs Mem.setNode_ Mem.node_
  simp only [List.count_set _ _ _ _ hi, List.getElem?_eq_getElem hi]
  rcases hx : m.objs[i] with _ | x <;> simp

theorem refs_pos_of_node_ {i a : Nat} (h : m.node_ i = some (some a)) : 0 < m.refs a := by
  have hi := node__lt m h
  unfold Mem.refs
  rw [List.count_pos_iff]
  unfold Mem.node_ at h
  rw [List.getElem?_eq_getElem hi] at h
  have : m.objs[i] = some (some a) := by
    rcases hx : m.objs[i] with _ | x
    · rw [hx] at h; simp at h
    · rw [hx] at h; simpa using h
  rw [← this]
  exact List.getElem_mem hi

theorem liveObjs_setNode_ (i : Nat) (p q : Option Nat) (h : m.node_ i = some q) :
    (m.setNode_ i p).liveObjs = m.liveObjs := by
  have hi := node__lt m h
  unfold Mem.liveObjs Mem.setNode_
  unfold Mem.node_ at h
  rw [List.getElem?_eq_getElem hi] at h
  simp only [List.countP_set _ _ _ _ hi]
  rcases hx : m.objs[i] with _ | x
  · rw [hx] at h; simp at h
  · simp
    have : 0 < List.countP Option.isSome m.objs :=
      List.countP_pos_iff.mpr ⟨m.objs[i], List.getElem_mem hi, by rw [hx]; rfl⟩
    omega

theorem refs_le_liveObjs (a : Nat) : m.refs a ≤ m.liveObjs := by
  unfold Mem.refs Mem.liveObjs
  rw [List.count_eq_countP]
  apply List.countP_mono_left
  intro x _ hx
  have : x = some (some a) := by simpa using hx
  subst this
  rfl

@[simp] theorem load_setNode_ (i a : Nat) (p : Option Nat) :
    (m.setNode_ i p).load a = m.load a := rfl

@[simp] theorem freedPtrs_setNode_ (i : Nat) (p : Option Nat) :
    (m.setNode_ i p).freedPtrs = m.freedPtrs := rfl

@[simp] theorem freedNodes_setNode_ (i : Nat) (p : Option Nat) :
    (m.setNode_ i p).freedNodes = m.freedNodes := rfl

@[simp] theorem length_objs_setNode_ (i : Nat) (p : Option Nat) :
    (m.setNode_ i p).objs.length = m.objs.length := by
  simp [Mem.setNode_]

@[simp] theorem length_nodes_setNode_ (i : Nat) (p : Option Nat) :
    (m.setNode_ i p).nodes.length = m.nodes.length := rfl

/-! ### `store` -/

theorem load_store (a b : Nat) (n : Node) (ha : a < m.nodes.length) :
    (m.store a n).load b = if b = a then some n else m.load b := by
  unfold Mem.load Mem.store
  by_cases h : b = a
  · subst h
    simp [ha, List.getElem?_set]
  · have h2 : a ≠ b := fun e => h e.symm
    simp [h, List.getElem?_set_ne h2]

@[simp] theorem node__store (a i : Nat) (n : Node) : (m.store a n).node_ i = m.node_ i := rfl

@[simp] theorem refs_store (a b : Nat) (n : Node) : (m.store a n).refs b = m.refs b := rfl

@[simp] theorem liveObjs_store (a : Nat) (n : Node) : (m.store a n).liveObjs = m.liveObjs := rfl

@[simp] theorem freedPtrs_store (a : Nat) (n : Node) : (m.store a n).freedPtrs = m.freedPtrs := rfl

@[simp] theorem freedNodes_store (a : Nat) (n : Node) :
    (m.store a n).freedNodes = m.freedNodes := rfl

@[simp] theorem length_objs_store (a : Nat) (n : Node) :
    (m.store a n).objs.length = m.objs.length := rfl

@[simp] theorem length_nodes_store (a : Nat) (n : Node) :
    (m.store a n).nodes.length = m.nodes.length := by
  simp [Mem.store]

/-! ### `deletePtr` -/

@[simp] theorem load_deletePtr (p : Option Nat) (a : Nat) : (m.deletePtr p).load a = m.load a := by
  cases p <;> rfl

@[simp] theorem node__deletePtr (p : Option Nat) (i : Nat) :
    (m.deletePtr p).node_ i = m.node_ i := by
  cases p <;> rfl

@[simp] theorem refs_deletePtr (p : Option Nat) (a : Nat) : (m.deletePtr p).refs a = m.refs a := by
  cases p <;> rfl

@[simp] theorem liveObjs_deletePtr (p : Option Nat) : (m.deletePtr p).liveObjs = m.liveObjs := by
  cases p <;> rfl

@[simp] theorem freedNodes_deletePtr (p : Option Nat) :
    (m.deletePtr p).freedNodes = m.freedNodes := by
  cases p <;> rfl

@[simp] theorem length_objs_deletePtr (p : Option Nat) :
    (m.deletePtr p).objs.length = m.objs.length := by
  cases p <;> rfl

@[simp] theorem length_nodes_deletePtr (p : Option Nat) :
    (m.deletePtr p).nodes.length = m.nodes.length := by
  cases p <;> rfl

theorem freedPtrs_deletePtr (p : Option Nat) :
    (m.deletePtr p).freedPtrs = m.freedPtrs ++ p.toList := by
  cases p <;> simp [Mem.deletePtr]

/-! ### `deleteNode` -/

theorem load_deleteNode (a b : Nat) :
    (m.deleteNode a).load b = if b = a then none else m.load b := by
  unfold Mem.load Mem.deleteNode
  by_cases h : b = a
  · subst h
    by_cases hl : b < m.nodes.length
    · simp [hl, List.getElem?_set]
    · simp [List.getElem?_set, hl]
  · have h2 : a ≠ b := fun e => h e.symm
    simp [h, List.getElem?_set_ne h2]

@[simp] theorem node__deleteNode (a i : Nat) : (m.deleteNode a).node_ i = m.node_ i := rfl

@[simp] theorem refs_deleteNode (a b : Nat) : (m.deleteNode a).refs b = m.refs b := rfl

@[simp] theorem liveObjs_deleteNode (a : Nat) : (m.deleteNode a).liveObjs = m.liveObjs := rfl

@[simp] theorem freedPtrs_deleteNode (a : Nat) : (m.deleteNode a).freedPtrs = m.freedPtrs := rfl

@[simp] theorem freedNodes_deleteNode (a : Nat) :
    (m.deleteNode a).freedNodes = m.freedNodes ++ [a] := rfl

@[simp] theorem length_objs_deleteNode (a : Nat) :
    (m.deleteNode a).objs.length = m.objs.length := rfl

@[simp] theorem length_nodes_deleteNode (a : Nat) :
    (m.deleteNode a).nodes.length = m.nodes.length := by
  simp [Mem.deleteNode]

/-! ### `pushObj`, `pushNode`, `endObj` -/

theorem node__pushObj (p : Option Nat) (j : Nat) :
    (m.pushObj p).node_ j = if j = m.objs.length then some p else m.node_ j := by
  unfold Mem.node_ Mem.pushObj
  by_cases h : j = m.objs.length
  · subst h; simp
  · simp only [h, if_false]
    by_cases hl : j < m.objs.length
    · rw [List.getElem?_append_left hl]
    · have h1 : m.objs.length ≤ j := Nat.le_of_not_lt hl
      have h2 : (m.objs ++ [some p]).length ≤ j := by simp; omega
      rw [List.getElem?_eq_none h1, List.getElem?_eq_none h2]

theorem refs_pushObj (p : Option Nat) (a : Nat) :
    (m.pushObj p).refs a = m.refs a + (if p = some a then 1 else 0) := by
  unfold Mem.refs Mem.pushObj
  simp [List.count_singleton]

@[simp] theorem liveObjs_pushObj (p : Option Nat) :
    (m.pushObj p).liveObjs = m.liveObjs + 1 := by
  unfold Mem.liveObjs Mem.pushObj
  simp

@[simp] theorem load_pushObj (p : Option Nat) (a : Nat) : (m.pushObj p).load a = m.load a := rfl

@[simp] theorem freedPtrs_pushObj (p : Option Nat) : (m.pushObj p).freedPtrs = m.freedPtrs := rfl

@[simp] theorem freedNodes_pushObj (p : Option Nat) :
    (m.pushObj p).freedNodes = m.freedNodes := rfl

@[simp] theorem length_objs_pushObj (p : Option Nat) :
    (m.pushObj p).objs.length = m.objs.length + 1 := by
  simp [Mem.pushObj]

@[simp] theorem length_nodes_pushObj (p : Option Nat) :
    (m.pushObj p).nodes.length = m.nodes.length := rfl

theorem load_pushNode (n : Node) (b : Nat) :
    (m.pushNode n).load b = if b = m.nodes.length then some n else m.load b := by
  unfold Mem.load Mem.pushNode
  by_cases h : b = m.nodes.length
  · subst h; simp
  · simp only [h, if_false]
    by_cases hl : b < m.nodes.length
    · rw [List.getElem?_append_left hl]
    · have h1 : m.nodes.length ≤ b := Nat.le_of_not_lt hl
      have h2 : (m.nodes ++ [some n]).length ≤ b := by simp; omega
      rw [List.getElem?_eq_none h1, List.getElem?_eq_none h2]

@[simp] theorem node__pushNode (n : Node) (i : Nat) : (m.pushNode n).node_ i = m.node_ i := rfl

@[simp] theorem refs_pushNode (n : Node) (a : Nat) : (m.pushNode n).refs a = m.refs a := rfl

@[simp] theorem liveObjs_pushNode (n : Node) : (m.pushNode n).liveObjs = m.liveObjs := rfl

@[simp] theorem freedPtrs_pushNode (n : Node) : (m.pushNode n).freedPtrs = m.freedPtrs := rfl

@[simp] theorem freedNodes_pushNode (n : Node) : (m.pushNode n).freedNodes = m.freedNodes := rfl

@[simp] theorem length_objs_pushNode (n : Node) :
    (m.pushNode n).objs.length = m.objs.length := rfl

@[simp] theorem length_nodes_pushNode (n : Node) :
    (m.pushNode n).nodes.length = m.nodes.length + 1 := by
  simp [Mem.pushNode]

theorem node__endObj (i j : Nat) :
    (m.endObj i).node_ j = if j = i then none else m.node_ j := by
  unfold Mem.node_ Mem.endObj
  by_cases h : j = i
  · subst h
    by_cases hl : j < m.objs.length
    · simp [hl, List.getElem?_set]
    · simp [List.getElem?_set, hl]
  · have h2 : i ≠ j := fun e => h e.symm
    simp [h, List.getElem?_set_ne h2]

theorem refs_endObj (i a : Nat) (hi : i < m.objs.length) :
    (m.endObj i).refs a = m.refs a - (if m.node_ i = some (some a) then 1 else 0) := by
  unfold Mem.refs Mem.endObj Mem.node_
  simp only [List.count_set _ _ _ _ hi, List.getElem?_eq_getElem hi]
  rcases hx : m.objs[i] with _ | x <;> simp

theorem liveObjs_endObj (i : Nat) (q : Option Nat) (h : m.node_ i = some q) :
    (m.endObj i).liveObjs = m.liveObjs - 1 := by
  have hi := node__lt m h
  unfold Mem.liveObjs Mem.endObj
  unfold Mem.node_ at h
  rw [List.getElem?_eq_getElem hi] at h
  simp only [List.countP_set _ _ _ _ hi]
  rcases hx : m.objs[i] with _ | x
  · rw [hx] at h; simp at h
  · simp

@[simp] theorem load_endObj (i a : Nat) : (m.endObj i).load a = m.load a := rfl

@[simp] theorem freedPtrs_endObj (i : Nat) : (m.endObj i).freedPtrs = m.freedPtrs := rfl

@[simp] theorem freedNodes_endObj (i : Nat) : (m.endObj i).freedNodes = m.freedNodes := rfl

@[simp] theorem length_objs_endObj (i : Nat) : (m.endObj i).objs.length = m.objs.length := by
  simp [Mem.endObj]

@[simp] theorem length_nodes_endObj (i : Nat) :
    (m.endObj i).nodes.length = m.nodes.length := rfl

end views

/-! ## Counter arithmetic -/

theorem incr_eq {c : Nat} (h : c < SIZE_MAX) : incr c = c + 1 := by
  unfold incr
  unfold SIZE_MAX at h
  exact Nat.mod_eq_of_lt (by omega)

theorem decr_eq {c : Nat} (h1 : 1 ≤ c) (h2 : c ≤ SIZE_MAX) : decr c = c - 1 := by
  unfold decr
  unfold SIZE_MAX at h2
  have e : c + 2 ^ 64 - 1 = (c - 1) + 2 ^ 64 := by omega
  rw [e, Nat.add_mod_right]
  exact Nat.mod_eq_of_lt (by omega)

theorem WF.counter_pos {m : Mem} (hw : WF m) {a : Nat} {n : Node} (hn : m.load a = some n) :
    1 ≤ n.strong_counter := by
  have h1 := hw.counts a n hn
  have h2 := hw.owned a n hn
  omega

theorem WF.counter_le {m : Mem} (hw : WF m) {a : Nat} {n : Node} (hn : m.load a = some n) :
    n.strong_counter ≤ m.liveObjs := by
  have h1 := hw.counts a n hn
  have h2 := refs_le_liveObjs m a
  omega

theorem WF.load_of_node_ {m : Mem} (hw : WF m) {i a : Nat} (h : m.node_ i = some (some a)) :
    ∃ n, m.load a = some n :=
  hw.nodangling a (refs_pos_of_node_ m h)

/-! ## `Release` -/

theorem Release_empty {m : Mem} {this : Nat} (h : m.node_ this = some none) :
    Release m this = some (m, none) := by
  simp [Release, h]

theorem Release_owner {m : Mem} (hw : WF m) {this a : Nat} {n : Node}
    (h : m.node_ this = some (some a)) (hn : m.load a = some n) :
    Release m this = some (releasedMem m this a n, n.ptr) := by
  have h1 := hw.counter_pos hn
  have h2 := hw.counter_le hn
  have h3 := hw.cap
  have hd : decr n.strong_counter = n.strong_counter - 1 := decr_eq h1 (by omega)
  have ha := load_lt m hn
  unfold Release releasedMem
  simp only [h, hn, Option.bind_eq_bind, Option.some_bind, load_store m _ _ _ ha, if_true, hd]
  by_cases hc : n.strong_counter = 1
  · simp [hc]
  · have : n.strong_counter - 1 ≠ 0 := by omega
    simp [hc, this]

section released

variable {m : Mem} {this a : Nat} {n : Node}

theorem node__releasedMem (h : m.node_ this = some (some a)) (j : Nat) :
    (releasedMem m this a n).node_ j = if j = this then some none else m.node_ j := by
  have hi := node__lt m h
  unfold releasedMem
  rw [node__setNode_]
  · by_cases hc : n.strong_counter = 1 <;> simp [hc]
  · split <;> simpa using hi

theorem load_releasedMem (hn : m.load a = some n) (b : Nat) :
    (releasedMem m this a n).load b
      = if b = a then (if n.strong_counter = 1 then none else some ⟨n.ptr, n.strong_counter - 1⟩)
        else m.load b := by
  have ha := load_lt m hn
  unfold releasedMem
  by_cases hc : n.strong_counter = 1 <;> by_cases hb : b = a <;>
    simp [hc, hb, load_deleteNode, load_store m _ _ _ ha]

theorem refs_releasedMem (h : m.node_ this = some (some a)) (b : Nat) :
    (releasedMem m this a n).refs b = m.refs b - (if b = a then 1 else 0) := by
  have hi := node__lt m h
  unfold releasedMem
  rw [refs_setNode_]
  · have hb2 : ∀ (_ : ¬ b = a), ¬ a = b := fun hb e => hb e.symm
    by_cases hc : n.strong_counter = 1 <;> by_cases hb : b = a <;> simp [hc, hb, h, hb2]
  · split <;> simpa using hi

theorem liveObjs_releasedMem (h : m.node_ this = some (some a)) :
    (releasedMem m this a n).liveObjs = m.liveObjs := by
  unfold releasedMem
  rw [liveObjs_setNode_ _ this none (some a)]
  · split <;> simp
  · split <;> simpa using h

theorem freedPtrs_releasedMem :
    (releasedMem m this a n).freedPtrs
      = m.freedPtrs ++ (if n.strong_counter = 1 then n.ptr.toList else []) := by
  unfold releasedMem
  by_cases hc : n.strong_counter = 1 <;> simp [hc, freedPtrs_deletePtr]

theorem freedNodes_releasedMem :
    (releasedMem m this a n).freedNodes
      = m.freedNodes ++ (if n.strong_counter = 1 then [a] else []) := by
  unfold releasedMem
  by_cases hc : n.strong_counter = 1 <;> simp [hc]

theorem length_objs_releasedMem : (releasedMem m this a n).objs.length = m.objs.length := by
  unfold releasedMem
  split <;> simp

theorem wf_releasedMem (hw : WF m) (h : m.node_ this = some (some a)) (hn : m.load a = some n) :
    WF (releasedMem m this a n) := by
  have hc := hw.counts a n hn
  have hp := hw.counter_pos hn
  refine ⟨?_, ?_, ?_, ?_⟩
  · intro b k hk
    rw [load_releasedMem hn] at hk
    rw [refs_releasedMem h]
    by_cases hb : b = a
    · subst hb
      by_cases h1 : n.strong_counter = 1
      · simp [h1] at hk
      · simp [h1] at hk
        subst hk
        simp
        omega
    · simp [hb] at hk
      simpa [hb] using hw.counts b k hk
  · intro b k hk
    rw [load_releasedMem hn] at hk
    rw [refs_releasedMem h]
    by_cases hb : b = a
    · subst hb
      by_cases h1 : n.strong_counter = 1
      · simp [h1] at hk
      · simp
        omega
    · simp [hb] at hk
      simpa [hb] using hw.owned b k hk
  · intro b hb0
    rw [refs_releasedMem h] at hb0
    rw [load_releasedMem hn]
    by_cases hb : b = a
    · subst hb
      have h1 : n.strong_counter ≠ 1 := by
        intro e
        simp at hb0
        omega
      simp [h1]
    · simp [hb] at hb0 ⊢
      exact hw.nodangling b hb0
  · rw [liveObjs_releasedMem h]
    exact hw.cap

end released

theorem wf_Release {m m1 : Mem} {this : Nat} {r : Option Nat} (hw : WF m)
    (h : Release m this = some (m1, r)) : WF m1 := by
  rcases hq : m.node_ this with _ | q
  · simp [Release, hq] at h
  · rcases q with _ | a
    · rw [Release_empty hq] at h
      simp at h
      rw [← h.1]
      exact hw
    · obtain ⟨n, hn⟩ := hw.load_of_node_ hq
      rw [Release_owner hw hq hn] at h
      simp at h
      rw [← h.1]
      exact wf_releasedMem hw hq hn

theorem Release_isSome {m : Mem} {this : Nat} {q : Option Nat} (hw : WF m)
    (hq : m.node_ this = some q) : ∃ m1 r, Release m this = some (m1, r) := by
  rcases q with _ | a
  · exact ⟨_, _, Release_empty hq⟩
  · obtain ⟨n, hn⟩ := hw.load_of_node_ hq
    exact ⟨_, _, Release_owner hw hq hn⟩

/-- A change that leaves every block and every reference count as they were keeps
the memory well formed. -/
theorem wf_of_views {m m1 : Mem} (hw : WF m) (hl : ∀ b, m1.load b = m.load b)
    (hr : ∀ b, m1.refs b = m.refs b) (hc : m1.liveObjs ≤ SIZE_MAX) : WF m1 := by
  refine ⟨?_, ?_, ?_, hc⟩
  · intro b k hk
    rw [hl] at hk
    rw [hr]
    exact hw.counts b k hk
  · intro b k hk
    rw [hl] at hk
    rw [hr]
    exact hw.owned b k hk
  · intro b hb
    rw [hr] at hb
    rw [hl]
    exact hw.nodangling b hb

/-! ## `Swap` -/

section swap

variable {m : Mem} {this other : Nat} {t p : Option Nat}

theorem Swap_eq (ht : m.node_ this = some t) (hp : m.node_ other = some p) :
    Swap m this other = some ((m.setNode_ this p).setNode_ other t) := by
  simp [Swap, ht, hp]

theorem node__swapped (ht : m.node_ this = some t) (hp : m.node_ other = some p) (j : Nat) :
    ((m.setNode_ this p).setNode_ other t).node_ j
      = if j = other then some t else if j = this then some p else m.node_ j := by
  have h1 := node__lt m ht
  have h2 := node__lt m hp
  rw [node__setNode_ _ _ _ _ (by simpa using h2), node__setNode_ _ _ _ _ h1]

theorem refs_swapped (ht : m.node_ this = some t) (hp : m.node_ other = some p) (b : Nat) :
    ((m.setNode_ this p).setNode_ other t).refs b = m.refs b := by
  have h1 := node__lt m ht
  have h2 := node__lt m hp
  rw [refs_setNode_ _ _ _ _ (by simpa using h2), refs_setNode_ _ _ _ _ h1,
    node__setNode_ _ _ _ _ h1, ht, hp]
  have hpos : ∀ q : Option Nat, m.node_ this = some q → q = some b → 0 < m.refs b := by
    intro q hq e
    subst e
    exact refs_pos_of_node_ m hq
  have hpos2 := hpos t ht
  by_cases e1 : t = some b <;> by_cases e2 : p = some b <;> by_cases e3 : other = this <;>
    simp [e1, e2, e3] <;> (try simp [e1] at hpos2) <;> omega

theorem liveObjs_swapped (ht : m.node_ this = some t) (hp : m.node_ other = some p) :
    ((m.setNode_ this p).setNode_ other t).liveObjs = m.liveObjs := by
  have h1 := node__lt m ht
  rw [liveObjs_setNode_ _ other t p, liveObjs_setNode_ _ this p t ht]
  rw [node__setNode_ _ _ _ _ h1]
  split
  · rfl
  · exact hp

theorem wf_Swap {m1 : Mem} (hw : WF m) (h : Swap m this other = some m1) : WF m1 := by
  rcases ht : m.node_ this with _ | t
  · simp [Swap, ht] at h
  rcases hp : m.node_ other with _ | p
  · simp [Swap, ht, hp] at h
  rw [Swap_eq ht hp] at h
  simp at h
  subst h
  refine wf_of_views hw (fun b => rfl) (refs_swapped ht hp) ?_
  rw [liveObjs_swapped ht hp]
  exact hw.cap

end swap

/-! ## Constructors -/

theorem newObj_eq {m : Mem} (p : Option Nat) (hc : m.liveObjs < SIZE_MAX) :
    m.newObj p = some (m.pushObj p, m.objs.length) := by
  simp [Mem.newObj, hc]

theorem newObj_some {m m1 : Mem} {p : Option Nat} {i : Nat} (h : m.newObj p = some (m1, i)) :
    m.liveObjs < SIZE_MAX ∧ m1 = m.pushObj p ∧ i = m.objs.length := by
  unfold Mem.newObj at h
  split at h
  · simp at h
    exact ⟨by assumption, h.1.symm, h.2.symm⟩
  · simp at h

theorem refs_fresh_node {m : Mem} (hw : WF m) : m.refs m.nodes.length = 0 := by
  by_contra h
  obtain ⟨n, hn⟩ := hw.nodangling _ (Nat.pos_of_ne_zero h)
  exact absurd (load_lt m hn) (Nat.lt_irrefl _)

theorem wf_ctor {m m1 : Mem} {i : Nat} (hw : WF m) (h : ctor m = some (m1, i)) : WF m1 := by
  obtain ⟨hc, rfl, -⟩ := newObj_some h
  refine wf_of_views hw (fun b => rfl) (fun b => ?_) ?_
  · simp [refs_pushObj]
  · simp
    omega

theorem wf_ctorRaw {m m1 : Mem} {ptr : Option Nat} {i : Nat} (hw : WF m)
    (h : ctorRaw m ptr = some (m1, i)) : WF m1 := by
  unfold ctorRaw Mem.newNode at h
  obtain ⟨hc, rfl, -⟩ := newObj_some h
  have hf := refs_fresh_node hw
  simp at hc
  refine ⟨?_, ?_, ?_, ?_⟩
  · intro b k hk
    simp [load_pushNode, refs_pushObj] at hk ⊢
    by_cases hb : b = m.nodes.length
    · subst hb
      simp at hk
      subst hk
      simp [hf]
    · have hb2 : ¬ m.nodes.length = b := fun e => hb e.symm
      simp [hb] at hk
      simpa [hb2] using hw.counts b k hk
  · intro b k hk
    simp [load_pushNode, refs_pushObj] at hk ⊢
    by_cases hb : b = m.nodes.length
    · subst hb
      simp
    · have hb2 : ¬ m.nodes.length = b := fun e => hb e.symm
      simp [hb] at hk
      simpa [hb2] using hw.owned b k hk
  · intro b hb0
    simp [load_pushNode, refs_pushObj] at hb0 ⊢
    by_cases hb : b = m.nodes.length
    · simp [hb]
    · have hb2 : ¬ m.nodes.length = b := fun e => hb e.symm
      simp [hb, hb2] at hb0 ⊢
      exact hw.nodangling b hb0
  · simp
    omega

theorem ctorMove_eq {m : Mem} {other : Nat} {p : Option Nat} (hp : m.node_ other = some p)
    (hc : m.liveObjs < SIZE_MAX) :
    ctorMove m other = some ((m.pushObj p).setNode_ other none, m.objs.length) := by
  simp [ctorMove, hp, newObj_eq p hc]

theorem wf_ctorMove {m m1 : Mem} {other i : Nat} (hw : WF m)
    (h : ctorMove m other = some (m1, i)) : WF m1 := by
  rcases hp : m.node_ other with _ | p
  · simp [ctorMove, hp] at h
  by_cases hc : m.liveObjs < SIZE_MAX
  · rw [ctorMove_eq hp hc] at h
    simp at h
    obtain ⟨rfl, -⟩ := h
    have ho := node__lt m hp
    have hne : other ≠ m.objs.length := Nat.ne_of_lt ho
    have hlive : ((m.pushObj p).setNode_ other none).liveObjs = m.liveObjs + 1 := by
      rw [liveObjs_setNode_ _ other none p]
      · simp
      · simp [node__pushObj, hne, hp]
    refine wf_of_views hw (fun b => rfl) (fun b => ?_) ?_
    · rw [refs_setNode_ _ _ _ _ (by simp; omega), refs_pushObj, node__pushObj]
      simp [hne, hp]
    · rw [hlive]
      omega
  · simp [ctorMove, hp, Mem.newObj, hc] at h

theorem ctorCopy_empty {m : Mem} {other : Nat} (hp : m.node_ other = some none)
    (hc : m.liveObjs < SIZE_MAX) :
    ctorCopy m other = some (m.pushObj none, m.objs.length) := by
  simp [ctorCopy, hp, newObj_eq none hc]

theorem ctorCopy_owner {m : Mem} (hw : WF m) {other a : Nat} {n : Node}
    (hp : m.node_ other = some (some a)) (hn : m.load a = some n)
    (hc : m.liveObjs < SIZE_MAX) :
    ctorCopy m other = some (copiedMem m a n, m.objs.length) := by
  have h2 := hw.counter_le hn
  have hi : incr n.strong_counter = n.strong_counter + 1 := incr_eq (by omega)
  simp [ctorCopy, hp, newObj_eq (some a) hc, hn, hi, copiedMem]

theorem load_copiedMem {m : Mem} {a : Nat} {n : Node} (hn : m.load a = some n) (b : Nat) :
    (copiedMem m a n).load b
      = if b = a then some ⟨n.ptr, n.strong_counter + 1⟩ else m.load b := by
  unfold copiedMem
  rw [load_store _ _ _ _ (by simpa using load_lt m hn)]
  simp

theorem node__copiedMem {m : Mem} {a : Nat} {n : Node} (j : Nat) :
    (copiedMem m a n).node_ j = if j = m.objs.length then some (some a) else m.node_ j := by
  unfold copiedMem
  simp [node__pushObj]

theorem refs_copiedMem {m : Mem} {a : Nat} {n : Node} (b : Nat) :
    (copiedMem m a n).refs b = m.refs b + (if b = a then 1 else 0) := by
  unfold copiedMem
  simp [refs_pushObj]
  by_cases hb : b = a
  · simp [hb]
  · have hb2 : ¬ a = b := fun e => hb e.symm
    simp [hb, hb2]

theorem wf_copiedMem {m : Mem} (hw : WF m) {a : Nat} {n : Node} (hn : m.load a = some n)
    (hc : m.liveObjs < SIZE_MAX) : WF (copiedMem m a n) := by
  have hcnt := hw.counts a n hn
  refine ⟨?_, ?_, ?_, ?_⟩
  · intro b k hk
    rw [load_copiedMem hn] at hk
    rw [refs_copiedMem]
    by_cases hb : b = a
    · subst hb
      simp at hk
      subst hk
      simp [hcnt]
    · simp [hb] at hk
      simpa [hb] using hw.counts b k hk
  · intro b k hk
    rw [load_copiedMem hn] at hk
    rw [refs_copiedMem]
    by_cases hb : b = a
    · simp [hb]
    · simp [hb] at hk
      simpa [hb] using hw.owned b k hk
  · intro b hb0
    rw [refs_copiedMem] at hb0
    rw [load_copiedMem hn]
    by_cases hb : b = a
    · simp [hb]
    · simp [hb] at hb0 ⊢
      exact hw.nodangling b hb0
  · unfold copiedMem
    simp
    omega

theorem wf_ctorCopy {m m1 : Mem} {other i : Nat} (hw : WF m)
    (h : ctorCopy m other = some (m1, i)) : WF m1 := by
  rcases hp : m.node_ other with _ | p
  · simp [ctorCopy, hp] at h
  by_cases hc : m.liveObjs < SIZE_MAX
  · rcases p with _ | a
    · rw [ctorCopy_empty hp hc] at h
      simp at h
      obtain ⟨rfl, -⟩ := h
      refine wf_of_views hw (fun b => rfl) (fun b => ?_) ?_
      · simp [refs_pushObj]
      · simp
        omega
    · obtain ⟨n, hn⟩ := hw.load_of_node_ hp
      rw [ctorCopy_owner hw hp hn hc] at h
      simp at h
      obtain ⟨rfl, -⟩ := h
      exact wf_copiedMem hw hn hc
  · simp [ctorCopy, hp, Mem.newObj, hc] at h

/-! ## Destructor and assignments -/

theorem node__Release_self {m m1 : Mem} {this : Nat} {r : Option Nat} (hw : WF m)
    (h : Release m this = some (m1, r)) : m1.node_ this = some none := by
  rcases hq : m.node_ this with _ | q
  · simp [Release, hq] at h
  · rcases q with _ | a
    · rw [Release_empty hq] at h
      simp at h
      rw [← h.1]
      exact hq
    · obtain ⟨n, hn⟩ := hw.load_of_node_ hq
      rw [Release_owner hw hq hn] at h
      simp at h
      rw [← h.1, node__releasedMem hq]
      simp

theorem wf_endObj_empty {m : Mem} {this : Nat} (hw : WF m) (h : m.node_ this = some none) :
    WF (m.endObj this) := by
  refine wf_of_views hw (fun b => rfl) (fun b => ?_) ?_
  · rw [refs_endObj _ _ _ (node__lt m h), h]
    simp
  · rw [liveObjs_endObj _ _ _ h]
    have := hw.cap
    omega

theorem wf_dtor {m m1 : Mem} {this : Nat} (hw : WF m) (h : dtor m this = some m1) : WF m1 := by
  unfold dtor at h
  rcases hr : Release m this with _ | ⟨m2, r⟩
  · simp [hr] at h
  · simp [hr] at h
    subst h
    exact wf_endObj_empty (wf_Release hw hr) (node__Release_self hw hr)

theorem wf_move_into_empty {m : Mem} {this other : Nat} {p : Option Nat} (hw : WF m)
    (ht : m.node_ this = some none) (hp : m.node_ other = some p) :
    WF ((m.setNode_ this p).setNode_ other none) := by
  have h1 := node__lt m ht
  have h2 := node__lt m hp
  have hn1 : (m.setNode_ this p).node_ other = some p := by
    rw [node__setNode_ _ _ _ _ h1]
    split <;> simp [hp]
  refine wf_of_views hw (fun b => rfl) (fun b => ?_) ?_
  · rw [refs_setNode_ _ _ _ _ (by simpa using h2), refs_setNode_ _ _ _ _ h1, hn1, ht]
    simp
  · rw [liveObjs_setNode_ _ other none p hn1, liveObjs_setNode_ _ this p none ht]
    exact hw.cap

theorem wf_assignMove {m m1 : Mem} {this other : Nat} (hw : WF m)
    (h : assignMove m this other = some m1) : WF m1 := by
  unfold assignMove at h
  rcases hr : Release m this with _ | ⟨m2, r⟩
  · simp [hr] at h
  · simp [hr] at h
    rcases hp : m2.node_ other with _ | p
    · simp [hp] at h
    · simp [hp] at h
      subst h
      exact wf_move_into_empty (wf_Release hw hr) (node__Release_self hw hr) hp

theorem wf_assignCopy {m m1 : Mem} {this other : Nat} (hw : WF m)
    (h : assignCopy m this other = some m1) : WF m1 := by
  unfold assignCopy at h
  rcases hc : ctorCopy m other with _ | ⟨m2, tmp⟩
  · simp [hc] at h
  · simp [hc] at h
    rcases hs : Swap m2 this tmp with _ | m3
    · simp [hs] at h
    · simp [hs] at h
      exact wf_dtor (wf_Swap (wf_ctorCopy hw hc) hs) h

theorem wf_Reset {m m1 : Mem} {this : Nat} (hw : WF m) (h : Reset m this = some m1) :
    WF m1 := by
  unfold Reset at h
  rcases hc : ctor m with _ | ⟨m2, t⟩
  · simp [hc] at h
  · simp [hc] at h
    rcases hs : Swap m2 t this with _ | m3
    · simp [hs] at h
    · simp [hs] at h
      exact wf_dtor (wf_Swap (wf_ctor hw hc) hs) h

theorem wf_ResetRaw {m m1 : Mem} {this : Nat} {ptr : Option Nat} (hw : WF m)
    (h : ResetRaw m this ptr = some m1) : WF m1 := by
  unfold ResetRaw at h
  rcases hc : ctorRaw m ptr with _ | ⟨m2, t⟩
  · simp [hc] at h
  · simp [hc] at h
    rcases hs : Swap m2 t this with _ | m3
    · simp [hs] at h
    · simp [hs] at h
      exact wf_dtor (wf_Swap (wf_ctorRaw hw hc) hs) h

theorem wf_empty : WF Mem.empty := by
  refine ⟨?_, ?_, ?_, ?_⟩
  · intro a n h
    simp [Mem.load, Mem.empty] at h
  · intro a n h
    simp [Mem.load, Mem.empty] at h
  · intro a h
    simp [Mem.refs, Mem.empty] at h
  · simp [Mem.liveObjs, Mem.empty]

theorem wf_step {m m1 : Mem} {op : Op} (hw : WF m) (h : step m op = some m1) : WF m1 := by
  cases op with
  | ctor =>
    simp only [step, Option.map_eq_some', Prod.exists, exists_and_right, exists_eq_right] at h
    obtain ⟨i, h⟩ := h
    exact wf_ctor hw h
  | ctorNull =>
    simp only [step, Option.map_eq_some', Prod.exists, exists_and_right, exists_eq_right] at h
    obtain ⟨i, h⟩ := h
    exact wf_ctor hw h
  | ctorRaw ptr =>
    simp only [step, Option.map_eq_some', Prod.exists, exists_and_right, exists_eq_right] at h
    obtain ⟨i, h⟩ := h
    exact wf_ctorRaw hw h
  | ctorMove other =>
    simp only [step, Option.map_eq_some', Prod.exists, exists_and_right, exists_eq_right] at h
    obtain ⟨i, h⟩ := h
    exact wf_ctorMove hw h
  | ctorCopy other =>
    simp only [step, Option.map_eq_some', Prod.exists, exists_and_right, exists_eq_right] at h
    obtain ⟨i, h⟩ := h
    exact wf_ctorCopy hw h
  | assignMove this other => exact wf_assignMove hw h
  | assignCopy this other => exact wf_assignCopy hw h
  | Release this =>
    simp only [step, Option.map_eq_some', Prod.exists, exists_and_right, exists_eq_right] at h
    obtain ⟨r, h⟩ := h
    exact wf_Release hw h
  | Reset this => exact wf_Reset hw h
  | ResetRaw this ptr => exact wf_ResetRaw hw h
  | Swap this other => exact wf_Swap hw h
  | dtor this => exact wf_dtor hw h

theorem wf_run {ops : List Op} {m m1 : Mem} (hw : WF m) (h : run m ops = some m1) : WF m1 := by
  induction ops generalizing m with
  | nil =>
    simp [run] at h
    subst h
    exact hw
  | cons op ops ih =>
    simp only [run, Option.bind_eq_some] at h
    obtain ⟨m2, h2, h3⟩ := h
    exact ih (wf_step hw h2) h3

theorem Reachable.wf {m : Mem} (h : Reachable m) : WF m := by
  obtain ⟨ops, h⟩ := h
  exact wf_run wf_empty h

theorem run_append (m : Mem) (xs ys : List Op) :
    run m (xs ++ ys) = (run m xs).bind fun m1 => run m1 ys := by
  induction xs generalizing m with
  | nil => simp [run]
  | cons x xs ih =>
    simp only [List.cons_append, run]
    rcases step m x with _ | m2
    · simp
    · simp [ih]

theorem Reachable.run {m m1 : Mem} {ops : List Op} (h : Reachable m)
    (h1 : SharedPtr.run m ops = some m1) : Reachable m1 := by
  obtain ⟨ops0, h0⟩ := h
  refine ⟨ops0 ++ ops, ?_⟩
  rw [run_append, h0]
  simpa using h1

theorem owners_length_aux (l : List (Option (Option Nat))) (a : Nat) :
    ((List.range l.length).filter fun i => (l[i]?).join = some (some a)).length
      = l.count (some (some a)) := by
  induction l using List.reverseRecOn with
  | nil => simp
  | append_singleton l x ih =>
    rw [List.length_append, List.length_singleton, List.range_succ, List.filter_append,
      List.length_append, List.count_append]
    congr 1
    · rw [← ih]
      congr 1
      apply List.filter_congr
      intro i hi
      rw [List.mem_range] at hi
      rw [List.getElem?_append_left hi]
    · rcases x with _ | x
      · simp [List.filter_cons]
      · by_cases hx : x = some a
        · simp [List.filter_cons, hx]
        · simp [List.filter_cons, hx, List.count_singleton]

theorem owners_length (m : Mem) (a : Nat) : (m.owners a).length = m.refs a :=
  owners_length_aux m.objs a

/-! ## Sharing one block among several objects, then destroying them -/

theorem dtor_owner {m : Mem} (hw : WF m) {this a : Nat} {n : Node}
    (h : m.node_ this = some (some a)) (hn : m.load a = some n) :
    dtor m this = some ((releasedMem m this a n).endObj this) := by
  simp [dtor, Release_owner hw h hn]

theorem dtor_empty {m : Mem} {this : Nat} (h : m.node_ this = some none) :
    dtor m this = some (m.endObj this) := by
  simp [dtor, Release_empty h]

theorem run_copies (k : Nat) : ∀ (m : Mem) (src a : Nat) (ptr : Option Nat) (c : Nat),
    WF m → m.node_ src = some (some a) → m.load a = some ⟨ptr, c⟩ →
    m.liveObjs + k ≤ SIZE_MAX →
    ∃ m1, run m (List.replicate k (Op.ctorCopy src)) = some m1 ∧ WF m1 ∧
      m1.load a = some ⟨ptr, c + k⟩ ∧
      (∀ j, m1.node_ j
        = if m.objs.length ≤ j ∧ j < m.objs.length + k then some (some a) else m.node_ j) ∧
      m1.freedPtrs = m.freedPtrs ∧ m1.freedNodes = m.freedNodes := by
  induction k with
  | zero =>
    intro m src a ptr c hw hs hl hc
    refine ⟨m, by simp [run], hw, by simpa using hl, ?_, rfl, rfl⟩
    intro j
    have : ¬ (m.objs.length ≤ j ∧ j < m.objs.length + 0) := by omega
    rw [if_neg this]
  | succ k ih =>
    intro m src a ptr c hw hs hl hc
    have hc1 : m.liveObjs < SIZE_MAX := by omega
    have hstep := ctorCopy_owner hw hs hl hc1
    have hw1 := wf_copiedMem hw hl hc1
    have hsrc := node__lt m hs
    have hs1 : (copiedMem m a ⟨ptr, c⟩).node_ src = some (some a) := by
      rw [node__copiedMem]
      simp [hs]
    have hl1 : (copiedMem m a ⟨ptr, c⟩).load a = some ⟨ptr, c + 1⟩ := by
      rw [load_copiedMem hl]
      simp
    have hlive : (copiedMem m a ⟨ptr, c⟩).liveObjs + k ≤ SIZE_MAX := by
      simp [copiedMem]
      omega
    have hlen : (copiedMem m a ⟨ptr, c⟩).objs.length = m.objs.length + 1 := by
      simp [copiedMem]
    obtain ⟨m1, hr, hwf, hload, hnode, hf1, hf2⟩ := ih _ src a ptr (c + 1) hw1 hs1 hl1 hlive
    refine ⟨m1, ?_, hwf, ?_, ?_, ?_, ?_⟩
    · simp [List.replicate_succ, run, step, hstep, hr]
    · rw [hload]
      congr 2
      omega
    · intro j
      rw [hnode j, hlen, node__copiedMem]
      by_cases h1 : j = m.objs.length
      · subst h1
        simp
      · by_cases h2 : m.objs.length + 1 ≤ j ∧ j < m.objs.length + 1 + k
        · have : m.objs.length ≤ j ∧ j < m.objs.length + (k + 1) := by omega
          simp [h2, this]
        · have : ¬ (m.objs.length ≤ j ∧ j < m.objs.length + (k + 1)) := by omega
          simp [h1, h2, this]
    · rw [hf1]
      simp [copiedMem]
    · rw [hf2]
      simp [copiedMem]

theorem run_dtors (ds : List Nat) : ∀ (m : Mem) (a : Nat) (ptr : Option Nat) (c : Nat),
    WF m → m.load a = some ⟨ptr, c⟩ → ds.Nodup →
    (∀ i ∈ ds, m.node_ i = some (some a)) →
    ∃ m1, run m (ds.map Op.dtor) = some m1 ∧ WF m1 ∧ ds.length ≤ c ∧
      (ds.length < c → m1.load a = some ⟨ptr, c - ds.length⟩ ∧
        m1.freedPtrs = m.freedPtrs ∧ m1.freedNodes = m.freedNodes) ∧
      (ds.length = c → m1.load a = none ∧
        m1.freedPtrs = m.freedPtrs ++ ptr.toList ∧ m1.freedNodes = m.freedNodes ++ [a]) := by
  induction ds with
  | nil =>
    intro m a ptr c hw hl _ _
    have hp := hw.counter_pos hl
    simp at hp
    refine ⟨m, by simp [run], hw, by simp, ?_, ?_⟩
    · intro _
      exact ⟨by simpa using hl, rfl, rfl⟩
    · intro h0
      simp at h0
      omega
  | cons d ds ih =>
    intro m a ptr c hw hl hnd hall
    have hp := hw.counter_pos hl
    simp at hp
    have hd : m.node_ d = some (some a) := hall d (List.mem_cons_self _ _)
    have hstep := dtor_owner hw hd hl
    have hw1 : WF ((releasedMem m d a ⟨ptr, c⟩).endObj d) := wf_dtor hw hstep
    have hnd2 : ds.Nodup := (List.nodup_cons.mp hnd).2
    have hdn : d ∉ ds := (List.nodup_cons.mp hnd).1
    have hall1 : ∀ i ∈ ds, ((releasedMem m d a ⟨ptr, c⟩).endObj d).node_ i = some (some a) := by
      intro i hi
      have hne : i ≠ d := fun e => hdn (e ▸ hi)
      rw [node__endObj, node__releasedMem hd]
      simp [hne, hall i (List.mem_cons_of_mem _ hi)]
    by_cases hc1 : c = 1
    · subst hc1
      have hgone : ((releasedMem m d a ⟨ptr, 1⟩).endObj d).load a = none := by
        simp [load_releasedMem hl]
      have hds : ds = [] := by
        rcases ds with _ | ⟨e, ds⟩
        · rfl
        · exfalso
          have he := hall1 e (List.mem_cons_self _ _)
          obtain ⟨n, hn⟩ := hw1.load_of_node_ he
          rw [hgone] at hn
          simp at hn
      subst hds
      refine ⟨_, by simp [run, step, hstep], hw1, by simp, by simp, ?_⟩
      intro _
      refine ⟨hgone, ?_, ?_⟩
      · simp [freedPtrs_releasedMem]
      · simp [freedNodes_releasedMem]
    · have hl1 : ((releasedMem m d a ⟨ptr, c⟩).endObj d).load a = some ⟨ptr, c - 1⟩ := by
        simp [load_releasedMem hl, hc1]
      obtain ⟨m1, hr, hwf, hle, hlt, heq⟩ := ih _ a ptr (c - 1) hw1 hl1 hnd2 hall1
      refine ⟨m1, ?_, hwf, ?_, ?_, ?_⟩
      · simp [run, step, hstep, hr]
      · simp
        omega
      · intro hlen
        simp at hlen
        obtain ⟨h1, h2, h3⟩ := hlt (by omega)
        refine ⟨?_, ?_, ?_⟩
        · rw [h1]
          congr 2
          simp
          omega
        · rw [h2]
          simp [freedPtrs_releasedMem, hc1]
        · rw [h3]
          simp [freedNodes_releasedMem, hc1]
      · intro hlen
        simp at hlen
        obtain ⟨h1, h2, h3⟩ := heq (by omega)
        refine ⟨h1, ?_, ?_⟩
        · rw [h2]
          simp [freedPtrs_releasedMem, hc1]
        · rw [h3]
          simp [freedNodes_releasedMem, hc1]

/-! ## Ownership of values -/

theorem own_of_views {m m1 : Mem} (ho : Own m) (hp : ∀ b, m1.ptrAt b = m.ptrAt b)
    (hf : m1.freedPtrs = m.freedPtrs) : Own m1 := by
  refine ⟨?_, ?_, ?_⟩
  · intro a b v ha hb
    rw [hp] at ha hb
    exact ho.uniq a b v ha hb
  · intro a v ha
    rw [hp] at ha
    rw [hf]
    exact ho.nofreed a v ha
  · rw [hf]
    exact ho.nodup

theorem fresh_ptrAt {m : Mem} {v : Nat} (h : m.fresh v) (b : Nat) : m.ptrAt b ≠ some v := by
  intro hb
  unfold Mem.ptrAt at hb
  rcases hl : m.load b with _ | n
  · simp [hl] at hb
  · have hlt := load_lt m hl
    have hmem : some n ∈ m.nodes := by
      unfold Mem.load at hl
      rw [List.getElem?_eq_getElem hlt] at hl
      have : m.nodes[b] = some n := by simpa using hl
      rw [← this]
      exact List.getElem_mem hlt
    have := h.2 (some n) hmem
    rw [hl] at hb
    exact this hb

theorem ptrAt_releasedMem {m : Mem} {this a : Nat} {n : Node} (hn : m.load a = some n)
    (b : Nat) :
    (releasedMem m this a n).ptrAt b
      = if b = a ∧ n.strong_counter = 1 then none else m.ptrAt b := by
  unfold Mem.ptrAt
  rw [load_releasedMem hn]
  by_cases hb : b = a
  · subst hb
    by_cases h1 : n.strong_counter = 1 <;> simp [h1, hn]
  · simp [hb]

theorem own_releasedMem {m : Mem} {this a : Nat} {n : Node} (ho : Own m)
    (hn : m.load a = some n) : Own (releasedMem m this a n) := by
  have hpa : m.ptrAt a = n.ptr := by simp [Mem.ptrAt, hn]
  by_cases h1 : n.strong_counter = 1
  · refine ⟨?_, ?_, ?_⟩
    · intro b c v hb hc
      rw [ptrAt_releasedMem hn] at hb hc
      split at hb
      · simp at hb
      split at hc
      · simp at hc
      exact ho.uniq b c v hb hc
    · intro b v hb
      rw [ptrAt_releasedMem hn] at hb
      rw [freedPtrs_releasedMem]
      split at hb
      · simp at hb
      rename_i hne
      have hba : b ≠ a := fun e => hne ⟨e, h1⟩
      simp only [h1, if_true, List.mem_append, not_or]
      refine ⟨ho.nofreed b v hb, ?_⟩
      intro hv
      have : n.ptr = some v := by simpa using hv
      exact hba (ho.uniq b a v hb (hpa.trans this))
    · rw [freedPtrs_releasedMem]
      simp only [h1, if_true]
      rcases hv : n.ptr with _ | v
      · simpa using ho.nodup
      · have hnf := ho.nofreed a v (hpa.trans hv)
        simp only [Option.toList]
        rw [List.nodup_append]
        refine ⟨ho.nodup, by simp, ?_⟩
        intro x hx hy
        have e : x = v := by simpa using hy
        subst e
        exact hnf hx
  · refine own_of_views ho (fun b => ?_) ?_
    · rw [ptrAt_releasedMem hn]
      simp [h1]
    · rw [freedPtrs_releasedMem]
      simp [h1]

theorem own_Release {m m1 : Mem} {this : Nat} {r : Option Nat} (hw : WF m) (ho : Own m)
    (h : Release m this = some (m1, r)) : Own m1 := by
  rcases hq : m.node_ this with _ | q
  · simp [Release, hq] at h
  · rcases q with _ | a
    · rw [Release_empty hq] at h
      simp at h
      rw [← h.1]
      exact ho
    · obtain ⟨n, hn⟩ := hw.load_of_node_ hq
      rw [Release_owner hw hq hn] at h
      simp at h
      rw [← h.1]
      exact own_releasedMem ho hn

theorem own_dtor {m m1 : Mem} {this : Nat} (hw : WF m) (ho : Own m)
    (h : dtor m this = some m1) : Own m1 := by
  unfold dtor at h
  rcases hr : Release m this with _ | ⟨m2, r⟩
  · simp [hr] at h
  · simp [hr] at h
    subst h
    exact own_of_views (own_Release hw ho hr) (fun b => rfl) rfl

theorem own_Swap {m m1 : Mem} {this other : Nat} (ho : Own m)
    (h : Swap m this other = some m1) : Own m1 := by
  rcases ht : m.node_ this with _ | t
  · simp [Swap, ht] at h
  rcases hp : m.node_ other with _ | p
  · simp [Swap, ht, hp] at h
  rw [Swap_eq ht hp] at h
  simp at h
  subst h
  exact own_of_views ho (fun b => rfl) rfl

theorem own_ctor {m m1 : Mem} {i : Nat} (ho : Own m) (h : ctor m = some (m1, i)) :
    Own m1 := by
  obtain ⟨-, rfl, -⟩ := newObj_some h
  exact own_of_views ho (fun b => rfl) rfl

theorem own_ctorMove {m m1 : Mem} {other i : Nat} (ho : Own m)
    (h : ctorMove m other = some (m1, i)) : Own m1 := by
  rcases hp : m.node_ other with _ | p
  · simp [ctorMove, hp] at h
  by_cases hc : m.liveObjs < SIZE_MAX
  · rw [ctorMove_eq hp hc] at h
    simp at h
    obtain ⟨rfl, -⟩ := h
    exact own_of_views ho (fun b => rfl) rfl
  · simp [ctorMove, hp, Mem.newObj, hc] at h

theorem own_ctorCopy {m m1 : Mem} {other i : Nat} (hw : WF m) (ho : Own m)
    (h : ctorCopy m other = some (m1, i)) : Own m1 := by
  rcases hp : m.node_ other with _ | p
  · simp [ctorCopy, hp] at h
  by_cases hc : m.liveObjs < SIZE_MAX
  · rcases p with _ | a
    · rw [ctorCopy_empty hp hc] at h
      simp at h
      obtain ⟨rfl, -⟩ := h
      exact own_of_views ho (fun b => rfl) rfl
    · obtain ⟨n, hn⟩ := hw.load_of_node_ hp
      rw [ctorCopy_owner hw hp hn hc] at h
      simp at h
      obtain ⟨rfl, -⟩ := h
      refine own_of_views ho (fun b => ?_) (by simp [copiedMem])
      unfold Mem.ptrAt
      rw [load_copiedMem hn]
      by_cases hb : b = a
      · subst hb
        simp [hn]
      · simp [hb]
  · simp [ctorCopy, hp, Mem.newObj, hc] at h

theorem own_ctorRaw {m m1 : Mem} {ptr : Option Nat} {i : Nat} (ho : Own m)
    (hfresh : ∀ v, ptr = some v → m.fresh v) (h : ctorRaw m ptr = some (m1, i)) :
    Own m1 := by
  unfold ctorRaw Mem.newNode at h
  obtain ⟨-, rfl, -⟩ := newObj_some h
  have hpt : ∀ b, ((m.pushNode ⟨ptr, 1⟩).pushObj (some m.nodes.length)).ptrAt b
      = if b = m.nodes.length then ptr else m.ptrAt b := by
    intro b
    unfold Mem.ptrAt
    simp only [load_pushObj, load_pushNode]
    by_cases hb : b = m.nodes.length <;> simp [hb]
  refine ⟨?_, ?_, ?_⟩
  · intro a b v ha hb
    rw [hpt] at ha hb
    by_cases h1 : a = m.nodes.length <;> by_cases h2 : b = m.nodes.length
    · rw [h1, h2]
    · simp [h1] at ha
      simp [h2] at hb
      exact absurd hb (fresh_ptrAt (hfresh v ha) b)
    · simp [h1] at ha
      simp [h2] at hb
      exact absurd ha (fresh_ptrAt (hfresh v hb) a)
    · simp [h1] at ha
      simp [h2] at hb
      exact ho.uniq a b v ha hb
  · intro a v ha
    rw [hpt] at ha
    simp only [freedPtrs_pushObj, freedPtrs_pushNode]
    by_cases h1 : a = m.nodes.length
    · simp [h1] at ha
      exact (hfresh v ha).1
    · simp [h1] at ha
      exact ho.nofreed a v ha
  · simpa using ho.nodup

theorem own_assignMove {m m1 : Mem} {this other : Nat} (hw : WF m) (ho : Own m)
    (h : assignMove m this other = some m1) : Own m1 := by
  unfold assignMove at h
  rcases hr : Release m this with _ | ⟨m2, r⟩
  · simp [hr] at h
  · simp [hr] at h
    rcases hp : m2.node_ other with _ | p
    · simp [hp] at h
    · simp [hp] at h
      subst h
      exact own_of_views (own_Release hw ho hr) (fun b => rfl) rfl

theorem own_empty : Own Mem.empty := by
  refine ⟨?_, ?_, ?_⟩
  · intro a b v ha
    simp [Mem.ptrAt, Mem.load, Mem.empty] at ha
  · intro a v ha
    simp [Mem.ptrAt, Mem.load, Mem.empty] at ha
  · simp [Mem.empty]

theorem own_assignCopy {m m1 : Mem} {this other : Nat} (hw : WF m) (ho : Own m)
    (h : assignCopy m this other = some m1) : Own m1 := by
  unfold assignCopy at h
  rcases hc : ctorCopy m other with _ | ⟨m2, tmp⟩
  · simp [hc] at h
  · simp [hc] at h
    rcases hs : Swap m2 this tmp with _ | m3
    · simp [hs] at h
    · simp [hs] at h
      exact own_dtor (wf_Swap (wf_ctorCopy hw hc) hs) (own_Swap (own_ctorCopy hw ho hc) hs) h

theorem own_Reset {m m1 : Mem} {this : Nat} (hw : WF m) (ho : Own m)
    (h : Reset m this = some m1) : Own m1 := by
  unfold Reset at h
  rcases hc : ctor m with _ | ⟨m2, t⟩
  · simp [hc] at h
  · simp [hc] at h
    rcases hs : Swap m2 t this with _ | m3
    · simp [hs] at h
    · simp [hs] at h
      exact own_dtor (wf_Swap (wf_ctor hw hc) hs) (own_Swap (own_ctor ho hc) hs) h

theorem own_ResetRaw {m m1 : Mem} {this : Nat} {ptr : Option Nat} (hw : WF m) (ho : Own m)
    (hfresh : ∀ v, ptr = some v → m.fresh v) (h : ResetRaw m this ptr = some m1) :
    Own m1 := by
  unfold ResetRaw at h
  rcases hc : ctorRaw m ptr with _ | ⟨m2, t⟩
  · simp [hc] at h
  · simp [hc] at h
    rcases hs : Swap m2 t this with _ | m3
    · simp [hs] at h
    · simp [hs] at h
      exact own_dtor (wf_Swap (wf_ctorRaw hw hc) hs) (own_Swap (own_ctorRaw ho hfresh hc) hs) h

theorem own_step {m m1 : Mem} {op : Op} (hw : WF m) (ho : Own m)
    (hfresh : ∀ v, op.rawArg = some v → m.fresh v) (h : step m op = some m1) : Own m1 := by
  cases op with
  | ctor =>
    simp only [step, Option.map_eq_some', Prod.exists, exists_and_right, exists_eq_right] at h
    obtain ⟨i, h⟩ := h
    exact own_ctor ho h
  | ctorNull =>
    simp only [step, Option.map_eq_some', Prod.exists, exists_and_right, exists_eq_right] at h
    obtain ⟨i, h⟩ := h
    exact own_ctor ho h
  | ctorRaw ptr =>
    simp only [step, Option.map_eq_some', Prod.exists, exists_and_right, exists_eq_right] at h
    obtain ⟨i, h⟩ := h
    exact own_ctorRaw ho hfresh h
  | ctorMove other =>
    simp only [step, Option.map_eq_some', Prod.exists, exists_and_right, exists_eq_right] at h
    obtain ⟨i, h⟩ := h
    exact own_ctorMove ho h
  | ctorCopy other =>
    simp only [step, Option.map_eq_some', Prod.exists, exists_and_right, exists_eq_right] at h
    obtain ⟨i, h⟩ := h
    exact own_ctorCopy hw ho h
  | assignMove this other => exact own_assignMove hw ho h
  | assignCopy this other => exact own_assignCopy hw ho h
  | Release this =>
    simp only [step, Option.map_eq_some', Prod.exists, exists_and_right, exists_eq_right] at h
    obtain ⟨r, h⟩ := h
    exact own_Release hw ho h
  | Reset this => exact own_Reset hw ho h
  | ResetRaw this ptr => exact own_ResetRaw hw ho hfresh h
  | Swap this other => exact own_Swap ho h
  | dtor this => exact own_dtor hw ho h

theorem own_run {ops : List Op} {m m1 : Mem} (hw : WF m) (ho : Own m)
    (hf : freshArgs m ops = true) (h : run m ops = some m1) : Own m1 := by
  induction ops generalizing m with
  | nil =>
    simp [run] at h
    subst h
    exact ho
  | cons op ops ih =>
    simp only [run, Option.bind_eq_some] at h
    obtain ⟨m2, h2, h3⟩ := h
    simp only [freshArgs, h2, Bool.and_eq_true] at hf
    have hfr : ∀ v, op.rawArg = some v → m.fresh v := by
      intro v hv
      have := hf.1
      rw [hv] at this
      simpa using this
    exact ih (wf_step hw h2) (own_step hw ho hfr h2) hf.2 h3

theorem Get_some_ptrAt {m : Mem} {i v : Nat} (h : Get m i = some (some v)) :
    ∃ a, m.node_ i = some (some a) ∧ m.ptrAt a = some v := by
  unfold Get at h
  rcases hq : m.node_ i with _ | q
  · simp [hq] at h
  rcases q with _ | a
  · simp [hq] at h
  rcases hl : m.load a with _ | n
  · simp [hq, hl] at h
  · simp [hq, hl] at h
    exact ⟨a, rfl, by simp [Mem.ptrAt, hl, h]⟩

/-! ## Observers -/

theorem Get_owner {m : Mem} {i a : Nat} {n : Node} (h : m.node_ i = some (some a))
    (hn : m.load a = some n) : Get m i = some n.ptr := by
  simp [Get, h, hn]

theorem Get_empty {m : Mem} {i : Nat} (h : m.node_ i = some none) : Get m i = some none := by
  simp [Get, h]

theorem UseCount_owner {τ : Type} (conv : Nat → τ) {m : Mem} {i a : Nat} {n : Node}
    (h : m.node_ i = some (some a)) (hn : m.load a = some n) :
    UseCount conv m i = some (conv n.strong_counter) := by
  simp [UseCount, h, hn]

theorem UseCount_empty {τ : Type} (conv : Nat → τ) {m : Mem} {i : Nat}
    (h : m.node_ i = some none) : UseCount conv m i = some (conv 0) := by
  simp [UseCount, h]

/-! ## Swapping with a temporary that is then destroyed -/

theorem Swap_comm (m : Mem) (i j : Nat) : Swap m i j = Swap m j i := by
  by_cases hij : i = j
  · rw [hij]
  rcases hi : m.node_ i with _ | t
  · rcases hj : m.node_ j with _ | p <;> simp [Swap, hi, hj]
  rcases hj : m.node_ j with _ | p
  · simp [Swap, hi, hj]
  rw [Swap_eq hi hj, Swap_eq hj hi]
  simp only [Mem.setNode_]
  rw [List.set_comm (some p) (some t) m.objs hij]

theorem swap_dtor_tmp {m : Mem} (hw : WF m) {this t : Nat} {q p : Option Nat}
    (hq : m.node_ this = some q) (hp : m.node_ t = some p) :
    ∃ m3, ((Swap m this t).bind fun m2 => dtor m2 t) = some m3 ∧
      (∀ j, m3.node_ j = if j = t then none else if j = this then some p else m.node_ j) ∧
      (q = none → (∀ b, m3.load b = m.load b) ∧ m3.freedPtrs = m.freedPtrs ∧
        m3.freedNodes = m.freedNodes) ∧
      (∀ y ny, q = some y → m.load y = some ny →
        (∀ b, m3.load b
          = if b = y then
              (if ny.strong_counter = 1 then none
               else some ⟨ny.ptr, ny.strong_counter - 1⟩)
            else m.load b) ∧
        m3.freedPtrs = m.freedPtrs ++ (if ny.strong_counter = 1 then ny.ptr.toList else []) ∧
        m3.freedNodes = m.freedNodes ++ (if ny.strong_counter = 1 then [y] else [])) := by
  have hs := Swap_eq hq hp
  have hw2 : WF ((m.setNode_ this p).setNode_ t q) := wf_Swap hw hs
  have hn2 := node__swapped hq hp
  have ht2 : ((m.setNode_ this p).setNode_ t q).node_ t = some q := by
    rw [hn2]
    simp
  rcases q with _ | y
  · refine ⟨((m.setNode_ this p).setNode_ t none).endObj t, by simp [hs, dtor_empty ht2],
      ?_, ?_, ?_⟩
    · intro j
      rw [node__endObj, hn2]
      by_cases h1 : j = t <;> simp [h1]
    · intro _
      exact ⟨fun b => rfl, rfl, rfl⟩
    · intro y ny e
      simp at e
  · obtain ⟨ny, hny⟩ := hw.load_of_node_ hq
    have hny2 : ((m.setNode_ this p).setNode_ t (some y)).load y = some ny := hny
    refine ⟨(releasedMem ((m.setNode_ this p).setNode_ t (some y)) t y ny).endObj t,
      by simp [hs, dtor_owner hw2 ht2 hny2], ?_, ?_, ?_⟩
    · intro j
      rw [node__endObj, node__releasedMem ht2, hn2]
      by_cases h1 : j = t <;> simp [h1]
    · intro e
      simp at e
    · intro y1 ny1 e hl
      simp at e
      subst e
      rw [hny] at hl
      simp at hl
      subst hl
      refine ⟨?_, ?_, ?_⟩
      · intro b
        simp only [load_endObj]
        rw [load_releasedMem hny2]
        simp
      · simp [freedPtrs_releasedMem]
      · simp [freedNodes_releasedMem]

theorem assignCopy_eq {m m1 : Mem} {this other tmp : Nat}
    (h : ctorCopy m other = some (m1, tmp)) :
    assignCopy m this other = (Swap m1 this tmp).bind fun m2 => dtor m2 tmp := by
  simp [assignCopy, h]

theorem Reset_eq {m m1 : Mem} {this t : Nat} (h : ctor m = some (m1, t)) :
    Reset m this = (Swap m1 this t).bind fun m2 => dtor m2 t := by
  simp [Reset, h, Swap_comm m1 t this]

theorem ResetRaw_eq {m m1 : Mem} {this t : Nat} {ptr : Option Nat}
    (h : ctorRaw m ptr = some (m1, t)) :
    ResetRaw m this ptr = (Swap m1 this t).bind fun m2 => dtor m2 t := by
  simp [ResetRaw, h, Swap_comm m1 t this]

/-! ## Move assignment between two objects -/

theorem assignMove_views {m : Mem} (hw : WF m) {this other : Nat} {q p : Option Nat}
    (hq : m.node_ this = some q) (hp : m.node_ other = some p) (hne : this ≠ other) :
    ∃ m3, assignMove m this other = some m3 ∧
      (∀ j, m3.node_ j
        = if j = other then some none else if j = this then some p else m.node_ j) ∧
      (q = none → (∀ b, m3.load b = m.load b) ∧ m3.freedPtrs = m.freedPtrs ∧
        m3.freedNodes = m.freedNodes) ∧
      (∀ y ny, q = some y → m.load y = some ny →
        (∀ b, m3.load b
          = if b = y then
              (if ny.strong_counter = 1 then none
               else some ⟨ny.ptr, ny.strong_counter - 1⟩)
            else m.load b) ∧
        m3.freedPtrs = m.freedPtrs ++ (if ny.strong_counter = 1 then ny.ptr.toList else []) ∧
        m3.freedNodes = m.freedNodes ++ (if ny.strong_counter = 1 then [y] else [])) := by
  have hne2 : other ≠ this := fun e => hne e.symm
  have h1 := node__lt m hq
  have h2 := node__lt m hp
  rcases q with _ | y
  · refine ⟨(m.setNode_ this p).setNode_ other none, by simp [assignMove, Release_empty hq, hp],
      ?_, ?_, ?_⟩
    · intro j
      rw [node__setNode_ _ _ _ _ (by simpa using h2), node__setNode_ _ _ _ _ h1]
    · intro _
      exact ⟨fun b => rfl, rfl, rfl⟩
    · intro y ny e
      simp at e
  · obtain ⟨ny, hny⟩ := hw.load_of_node_ hq
    have hp1 : (releasedMem m this y ny).node_ other = some p := by
      rw [node__releasedMem hq]
      simp [hne2, hp]
    have hl1 : this < (releasedMem m this y ny).objs.length := by
      rw [length_objs_releasedMem]
      exact h1
    have hl2 : other < ((releasedMem m this y ny).setNode_ this p).objs.length := by
      simp [length_objs_releasedMem]
      exact h2
    refine ⟨((releasedMem m this y ny).setNode_ this p).setNode_ other none,
      by simp [assignMove, Release_owner hw hq hny, hp1], ?_, ?_, ?_⟩
    · intro j
      rw [node__setNode_ _ _ _ _ hl2, node__setNode_ _ _ _ _ hl1, node__releasedMem hq]
      by_cases e1 : j = other <;> by_cases e2 : j = this <;> simp [e1, e2]
    · intro e
      simp at e
    · intro y1 ny1 e hl
      simp at e
      subst e
      rw [hny] at hl
      simp at hl
      subst hl
      refine ⟨?_, ?_, ?_⟩
      · intro b
        simp only [load_setNode_]
        rw [load_releasedMem hny]
      · simp [freedPtrs_releasedMem]
      · simp [freedNodes_releasedMem]

theorem two_le_refs {m : Mem} {i j a : Nat} (hi : m.node_ i = some (some a))
    (hj : m.node_ j = some (some a)) (hne : i ≠ j) : 2 ≤ m.refs a := by
  have hl := node__lt m hi
  have h1 := refs_setNode_ m i a none hl
  have h2 : (m.setNode_ i none).node_ j = some (some a) := by
    rw [node__setNode_ _ _ _ _ hl]
    have : j ≠ i := fun e => hne e.symm
    simp [this, hj]
  have h3 := refs_pos_of_node_ _ h2
  rw [h1] at h3
  simp [hi] at h3
  omega

/-! ## Properties of the specification -/

/-- C1. Reference-count invariant: in every memory reachable from no pointers by a
finite sequence of public operations (with any arguments), the `strong_counter` of
every live control block equals the number of live `SharedPtr` objects whose
`node_` is that block. -/
theorem strong_counter_eq_owners (ops : List Op) (m : Mem)
    (h : run Mem.empty ops = some m) (a : Nat) (n : Node) (hn : m.load a = some n) :
    n.strong_counter = (m.owners a).length := by
  rw [owners_length]
  exact (wf_run wf_empty h).counts a n hn

/-- Witness for C1: a block shared by three objects after one of four was destroyed. -/
theorem strong_counter_eq_owners_witness :
    run Mem.empty [.ctorRaw (some 7), .ctorCopy 0, .ctor, .assignCopy 2 1, .ctorMove 0,
        .dtor 1, .ResetRaw 0 none]
      = some ⟨[some ⟨some 7, 2⟩, some ⟨none, 1⟩],
          [some (some 1), none, some (some 0), none, some (some 0), none], [], []⟩
    ∧ (⟨some 7, 2⟩ : Node).strong_counter
      = (Mem.owners ⟨[some ⟨some 7, 2⟩, some ⟨none, 1⟩],
          [some (some 1), none, some (some 0), none, some (some 0), none], [], []⟩ 0).length :=
  ⟨by decide, strong_counter_eq_owners
    [.ctorRaw (some 7), .ctorCopy 0, .ctor, .assignCopy 2 1, .ctorMove 0, .dtor 1,
      .ResetRaw 0 none] _ (by decide) 0 _ (by decide)⟩

/-- C2. Destruction at zero count: in any reachable memory with room for `k + 1`
more objects, construct a `SharedPtr` from the raw pointer `v`, copy-construct it
`k` times and destroy the objects listed in `ord` (distinct ones among the `k + 1`,
in any order). While fewer than `k + 1` are destroyed nothing has been freed; once
all `k + 1` are destroyed the run has freed exactly `v` (one `delete ptr`) and
exactly the new control block (one `delete node_`). -/
theorem value_freed_once_after_all_destroyed (m : Mem) (hm : Reachable m) (v k : Nat)
    (hcap : m.liveObjs + (k + 1) ≤ SIZE_MAX) (ord : List Nat) (hnd : ord.Nodup)
    (hrange : ∀ i ∈ ord, m.objs.length ≤ i ∧ i ≤ m.objs.length + k) :
    ∃ m1, run m (Op.ctorRaw (some v) :: List.replicate k (Op.ctorCopy m.objs.length)
              ++ ord.map Op.dtor) = some m1 ∧
      (ord.length < k + 1 → m1.freedPtrs = m.freedPtrs ∧ m1.freedNodes = m.freedNodes) ∧
      (ord.length = k + 1 →
        m1.freedPtrs = m.freedPtrs ++ [v] ∧ m1.freedNodes = m.freedNodes ++ [m.nodes.length]) := by
  have hw := hm.wf
  have hc1 : m.liveObjs < SIZE_MAX := by omega
  have h0 : ctorRaw m (some v)
      = some ((m.pushNode ⟨some v, 1⟩).pushObj (some m.nodes.length), m.objs.length) := by
    simp [ctorRaw, Mem.newNode, Mem.newObj, hc1]
  have hw0 := wf_ctorRaw hw h0
  have hs0 : ((m.pushNode ⟨some v, 1⟩).pushObj (some m.nodes.length)).node_ m.objs.length
      = some (some m.nodes.length) := by
    simp [node__pushObj]
  have hl0 : ((m.pushNode ⟨some v, 1⟩).pushObj (some m.nodes.length)).load m.nodes.length
      = some ⟨some v, 1⟩ := by
    simp [load_pushNode]
  obtain ⟨m1, hr1, hw1, hl1, hn1, hf1, hg1⟩ :=
    run_copies k _ m.objs.length m.nodes.length (some v) 1 hw0 hs0 hl0 (by simp; omega)
  have hall : ∀ i ∈ ord, m1.node_ i = some (some m.nodes.length) := by
    intro i hi
    obtain ⟨h1, h2⟩ := hrange i hi
    rw [hn1 i]
    by_cases hi0 : i = m.objs.length
    · subst hi0
      simp [node__pushObj]
    · have : m.objs.length + 1 ≤ i ∧ i < m.objs.length + 1 + k := by omega
      simp [this]
  obtain ⟨m2, hr2, -, hle, hlt, heq⟩ :=
    run_dtors ord m1 m.nodes.length (some v) (1 + k) hw1 hl1 hnd hall
  refine ⟨m2, ?_, ?_, ?_⟩
  · rw [List.cons_append, run]
    simp only [step, h0, Option.map_some', Option.some_bind]
    rw [run_append, hr1]
    simpa using hr2
  · intro hlen
    obtain ⟨-, h2, h3⟩ := hlt (by omega)
    rw [h2, h3, hf1, hg1]
    simp
  · intro hlen
    obtain ⟨-, h2, h3⟩ := heq (by omega)
    rw [h2, h3, hf1, hg1]
    simp

/-- Witness for C2: one earlier pointer, then a value shared by three objects that
are destroyed in the order second copy, original, first copy. -/
theorem value_freed_once_after_all_destroyed_witness :
    ∃ m1, run ⟨[some ⟨some 3, 1⟩], [some (some 0)], [], []⟩
            (Op.ctorRaw (some 7) :: List.replicate 2 (Op.ctorCopy 1)
              ++ [3, 1, 2].map Op.dtor) = some m1 ∧
      ([3, 1, 2].length < 2 + 1 → m1.freedPtrs = [] ∧ m1.freedNodes = []) ∧
      ([3, 1, 2].length = 2 + 1 → m1.freedPtrs = [] ++ [7] ∧ m1.freedNodes = [] ++ [1]) :=
  value_freed_once_after_all_destroyed ⟨[some ⟨some 3, 1⟩], [some (some 0)], [], []⟩
    ⟨[.ctorRaw (some 3)], by decide⟩ 7 2 (by decide) [3, 1, 2] (by decide) (by decide)

/-- C4. Copy construction: in a reachable memory with room for one more object, the
copy `b(other)` gets the `node_` of `other`, which keeps it. If `other` references a
block holding `v` with count `n`, afterwards the block holds count `n + 1`,
`UseCount()` of both returns `n + 1` (converted to `T`) and `Get()` of both returns
`v`; if `other` is empty, `b` is empty with `UseCount()` zero. No control block is
allocated and nothing is freed. -/
theorem ctorCopy_shares_block (m : Mem) (hm : Reachable m) (other : Nat) (p : Option Nat)
    (hp : m.node_ other = some p) (hcap : m.liveObjs < SIZE_MAX) :
    ∃ m1 b, ctorCopy m other = some (m1, b) ∧
      m1.node_ b = some p ∧ m1.node_ other = some p ∧
      (∀ a v n, p = some a → m.load a = some ⟨v, n⟩ →
        m1.load a = some ⟨v, n + 1⟩ ∧ Get m1 b = some v ∧ Get m1 other = some v ∧
        ∀ (τ : Type) (conv : Nat → τ),
          UseCount conv m1 other = some (conv (n + 1)) ∧
          UseCount conv m1 b = some (conv (n + 1))) ∧
      (p = none → Get m1 b = some none ∧
        ∀ (τ : Type) (conv : Nat → τ), UseCount conv m1 b = some (conv 0)) ∧
      m1.nodes.length = m.nodes.length ∧ m1.freedPtrs = m.freedPtrs ∧
      m1.freedNodes = m.freedNodes := by
  have hw := hm.wf
  have ho := node__lt m hp
  have hne : other ≠ m.objs.length := Nat.ne_of_lt ho
  rcases p with _ | a
  · refine ⟨_, _, ctorCopy_empty hp hcap, ?_, ?_, ?_, ?_, ?_, rfl, rfl⟩
    · simp [node__pushObj]
    · simp [node__pushObj, hne, hp]
    · intro a v n e
      simp at e
    · intro _
      have hb : (m.pushObj none).node_ m.objs.length = some none := by simp [node__pushObj]
      exact ⟨Get_empty hb, fun τ conv => UseCount_empty conv hb⟩
    · simp
  · obtain ⟨k, hk⟩ := hw.load_of_node_ hp
    have hb : (copiedMem m a k).node_ m.objs.length = some (some a) := by
      simp [node__copiedMem]
    have hoth : (copiedMem m a k).node_ other = some (some a) := by
      simp [node__copiedMem, hne, hp]
    have hl : (copiedMem m a k).load a = some ⟨k.ptr, k.strong_counter + 1⟩ := by
      simp [load_copiedMem hk]
    refine ⟨_, _, ctorCopy_owner hw hp hk hcap, hb, hoth, ?_, ?_, ?_, ?_, ?_⟩
    · intro a1 v n e hload
      simp at e
      subst e
      rw [hk] at hload
      simp at hload
      subst hload
      refine ⟨hl, Get_owner hb hl, Get_owner hoth hl, ?_⟩
      intro τ conv
      exact ⟨UseCount_owner conv hoth hl, UseCount_owner conv hb hl⟩
    · intro e
      simp at e
    · simp [copiedMem]
    · simp [copiedMem]
    · simp [copiedMem]

/-- Witness for C4: copying one of two owners of a block. -/
theorem ctorCopy_shares_block_witness :
    ∃ m1 b, ctorCopy ⟨[some ⟨some 7, 2⟩], [some (some 0), some (some 0)], [], []⟩ 1
        = some (m1, b) ∧
      m1.node_ b = some (some 0) ∧ m1.node_ 1 = some (some 0) ∧
      (∀ a v n, some 0 = some a →
        (⟨[some ⟨some 7, 2⟩], [some (some 0), some (some 0)], [], []⟩ : Mem).load a
          = some ⟨v, n⟩ →
        m1.load a = some ⟨v, n + 1⟩ ∧ Get m1 b = some v ∧ Get m1 1 = some v ∧
        ∀ (τ : Type) (conv : Nat → τ),
          UseCount conv m1 1 = some (conv (n + 1)) ∧
          UseCount conv m1 b = some (conv (n + 1))) ∧
      (some 0 = none → Get m1 b = some none ∧
        ∀ (τ : Type) (conv : Nat → τ), UseCount conv m1 b = some (conv 0)) ∧
      m1.nodes.length = 1 ∧ m1.freedPtrs = [] ∧ m1.freedNodes = [] :=
  ctorCopy_shares_block ⟨[some ⟨some 7, 2⟩], [some (some 0), some (some 0)], [], []⟩
    ⟨[.ctorRaw (some 7), .ctorCopy 0], by decide⟩ 1 (some 0) (by decide) (by decide)

/-- C5, as stated, fails: when `b` already shares the block of `a` (count 2), the
copy assignment `b = a` leaves the count at 2, not at 3. -/
theorem assignCopy_between_sharers_keeps_count :
    run Mem.empty [.ctorRaw (some 7), .ctorCopy 0]
      = some ⟨[some ⟨some 7, 2⟩], [some (some 0), some (some 0)], [], []⟩
    ∧ UseCount id ⟨[some ⟨some 7, 2⟩], [some (some 0), some (some 0)], [], []⟩ 0 = some 2
    ∧ assignCopy ⟨[some ⟨some 7, 2⟩], [some (some 0), some (some 0)], [], []⟩ 1 0
      = some ⟨[some ⟨some 7, 2⟩], [some (some 0), some (some 0), none], [], []⟩
    ∧ UseCount id ⟨[some ⟨some 7, 2⟩], [some (some 0), some (some 0), none], [], []⟩ 0
      = some 2
    ∧ UseCount id ⟨[some ⟨some 7, 2⟩], [some (some 0), some (some 0), none], [], []⟩ 1
      = some 2 := by
  decide

/-- C5, amended. In a reachable memory with room for the temporary, let `a`
reference a block holding `v` with count `n`, and let `b` be any live object. After
`b = a` both reference that block, `Get()` of both returns `v`, and the count (what
`UseCount()` of both returns, converted to `T`) is `n + 1` when `b` did not reference
that block before, and `n` when it did. -/
theorem assignCopy_count (m : Mem) (hm : Reachable m) (a b x : Nat) (v : Option Nat)
    (n : Nat) (q : Option Nat) (ha : m.node_ a = some (some x))
    (hx : m.load x = some ⟨v, n⟩) (hb : m.node_ b = some q) (hcap : m.liveObjs < SIZE_MAX) :
    ∃ m1, assignCopy m b a = some m1 ∧
      m1.node_ a = some (some x) ∧ m1.node_ b = some (some x) ∧
      m1.load x = some ⟨v, if q = some x then n else n + 1⟩ ∧
      Get m1 a = some v ∧ Get m1 b = some v ∧
      ∀ (τ : Type) (conv : Nat → τ),
        UseCount conv m1 a = some (conv (if q = some x then n else n + 1)) ∧
        UseCount conv m1 b = some (conv (if q = some x then n else n + 1)) := by
  have hw := hm.wf
  have hpos := hw.counter_pos hx
  simp at hpos
  have hcopy := ctorCopy_owner hw ha hx hcap
  have hw1 := wf_copiedMem hw hx hcap
  have hbl := node__lt m hb
  have hal := node__lt m ha
  have hb1 : (copiedMem m x ⟨v, n⟩).node_ b = some q := by
    rw [node__copiedMem]
    simp [Nat.ne_of_lt hbl, hb]
  have ht1 : (copiedMem m x ⟨v, n⟩).node_ m.objs.length = some (some x) := by
    simp [node__copiedMem]
  have hx1 : (copiedMem m x ⟨v, n⟩).load x = some ⟨v, n + 1⟩ := by
    simp [load_copiedMem hx]
  obtain ⟨m3, hrun, hnode, hnone, hsome⟩ := swap_dtor_tmp hw1 hb1 ht1
  have hna : m3.node_ a = some (some x) := by
    rw [hnode, node__copiedMem]
    by_cases e : a = b <;> simp [Nat.ne_of_lt hal, Nat.ne_of_lt hbl, e, ha]
  have hnb : m3.node_ b = some (some x) := by
    rw [hnode]
    simp [Nat.ne_of_lt hbl]
  have hload : m3.load x = some ⟨v, if q = some x then n else n + 1⟩ := by
    rcases q with _ | y
    · rw [(hnone rfl).1, hx1]
      simp
    · by_cases hy : y = x
      · subst hy
        rw [(hsome y _ rfl hx1).1]
        have : n + 1 ≠ 1 := by omega
        simp [this]
      · obtain ⟨ny, hny⟩ := hw1.load_of_node_ hb1
        rw [(hsome y ny rfl hny).1]
        have hxy : ¬ x = y := fun e => hy e.symm
        simp [hxy, hx1, hy]
  refine ⟨m3, ?_, hna, hnb, hload, ?_, ?_, ?_⟩
  · rw [assignCopy_eq hcopy]
    exact hrun
  · exact Get_owner hna hload
  · exact Get_owner hnb hload
  · intro τ conv
    exact ⟨UseCount_owner conv hna hload, UseCount_owner conv hnb hload⟩

/-- Witness for C5 amended: the scenario of the `UseCount` test, `a = b` with `a`
empty and `b` the sole owner. -/
theorem assignCopy_count_witness :
    ∃ m1, assignCopy ⟨[some ⟨some 6, 1⟩], [some none, some (some 0)], [], []⟩ 0 1 = some m1 ∧
      m1.node_ 1 = some (some 0) ∧ m1.node_ 0 = some (some 0) ∧
      m1.load 0 = some ⟨some 6, if (none : Option Nat) = some 0 then 1 else 1 + 1⟩ ∧
      Get m1 1 = some (some 6) ∧ Get m1 0 = some (some 6) ∧
      ∀ (τ : Type) (conv : Nat → τ),
        UseCount conv m1 1 = some (conv (if (none : Option Nat) = some 0 then 1 else 1 + 1)) ∧
        UseCount conv m1 0 = some (conv (if (none : Option Nat) = some 0 then 1 else 1 + 1)) :=
  assignCopy_count ⟨[some ⟨some 6, 1⟩], [some none, some (some 0)], [], []⟩
    ⟨[.ctor, .ctorRaw (some 6)], by decide⟩ 1 0 0 (some 6) 1 none (by decide) (by decide)
    (by decide) (by decide)

/-- C6, as stated, fails in two ways. When `b` is another owner of the block of `a`
(count 2), the move assignment `b = std::move(a)` first releases the reference of
`b`, so the count of the block ends at 1, not at 2. And when `b` is the sole owner
of a second block that holds the same raw pointer 7, that release deletes 7, so
the value of `a` is freed and `b` returns it from `Get()` afterwards. -/
theorem assignMove_drops_count_or_frees_value :
    run Mem.empty [.ctorRaw (some 7), .ctorCopy 0]
      = some ⟨[some ⟨some 7, 2⟩], [some (some 0), some (some 0)], [], []⟩
    ∧ assignMove ⟨[some ⟨some 7, 2⟩], [some (some 0), some (some 0)], [], []⟩ 1 0
      = some ⟨[some ⟨some 7, 1⟩], [some none, some (some 0)], [], []⟩
    ∧ Get ⟨[some ⟨some 7, 1⟩], [some none, some (some 0)], [], []⟩ 1 = some (some 7)
    ∧ UseCount id ⟨[some ⟨some 7, 1⟩], [some none, some (some 0)], [], []⟩ 1 = some 1
    ∧ run Mem.empty [.ctorRaw (some 7), .ctorRaw (some 7)]
      = some ⟨[some ⟨some 7, 1⟩, some ⟨some 7, 1⟩], [some (some 0), some (some 1)], [], []⟩
    ∧ assignMove ⟨[some ⟨some 7, 1⟩, some ⟨some 7, 1⟩], [some (some 0), some (some 1)], [], []⟩
        1 0
      = some ⟨[some ⟨some 7, 1⟩, none], [some none, some (some 0)], [7], [1]⟩
    ∧ Get ⟨[some ⟨some 7, 1⟩, none], [some none, some (some 0)], [7], [1]⟩ 1 = some (some 7)
    ∧ 7 ∈ (⟨[some ⟨some 7, 1⟩, none], [some none, some (some 0)], [7], [1]⟩ : Mem).freedPtrs := by
  decide

/-- C6, amended. In a reachable memory let `a` reference block `x` holding `v` with
count `n`. Move construction from `a` (when there is room for the new object) leaves
`a` empty with `UseCount()` zero, the new object returns `v` from `Get()`, block `x`
still has count `n` and nothing is freed, so `v` is not freed. For every live object
`b` other than `a`, with `node_` equal to `q`, the move assignment
`b = std::move(a)` leaves `a` empty with `UseCount()` zero and `b` returning `v`;
block `x` is not freed and its count is `n` when `b` did not reference `x` before and
`n - 1` when it did; the previous block of `b` has its count decremented by one, and
it and its value are freed exactly when that count was 1; nothing else is freed; and
`v` is not freed unless the previous block of `b` was another block holding the
same pointer `v` with count 1. -/
theorem move_leaves_source_empty (m : Mem) (hm : Reachable m) (a x : Nat) (v : Option Nat)
    (n : Nat) (ha : m.node_ a = some (some x)) (hx : m.load x = some ⟨v, n⟩) :
    (m.liveObjs < SIZE_MAX → ∃ m1 c, ctorMove m a = some (m1, c) ∧ c ≠ a ∧
      Get m1 a = some none ∧ Get m1 c = some v ∧ m1.load x = some ⟨v, n⟩ ∧
      (∀ (τ : Type) (conv : Nat → τ),
        UseCount conv m1 a = some (conv 0) ∧ UseCount conv m1 c = some (conv n)) ∧
      m1.freedPtrs = m.freedPtrs ∧ m1.freedNodes = m.freedNodes) ∧
    (∀ b q, b ≠ a → m.node_ b = some q →
      ∃ m1, assignMove m b a = some m1 ∧
        Get m1 a = some none ∧ Get m1 b = some v ∧
        m1.load x = some ⟨v, if q = some x then n - 1 else n⟩ ∧
        (∀ (τ : Type) (conv : Nat → τ),
          UseCount conv m1 a = some (conv 0) ∧
          UseCount conv m1 b = some (conv (if q = some x then n - 1 else n))) ∧
        (q = none → m1.freedPtrs = m.freedPtrs ∧ m1.freedNodes = m.freedNodes) ∧
        (∀ y w c, q = some y → m.load y = some ⟨w, c⟩ →
          m1.load y = (if c = 1 then none else some ⟨w, c - 1⟩) ∧
          m1.freedPtrs = m.freedPtrs ++ (if c = 1 then w.toList else []) ∧
          m1.freedNodes = m.freedNodes ++ (if c = 1 then [y] else [])) ∧
        (∀ u, v = some u →
          (∀ y, q = some y → y ≠ x → m.load y ≠ some ⟨some u, 1⟩) →
          m1.freedPtrs.count u = m.freedPtrs.count u)) := by
  have hw := hm.wf
  have hal := node__lt m ha
  have hane : a ≠ m.objs.length := Nat.ne_of_lt hal
  constructor
  · intro hcap
    have hc : ((m.pushObj (some x)).setNode_ a none).node_ m.objs.length = some (some x) := by
      have hane2 : ¬ m.objs.length = a := fun e => hane e.symm
      rw [node__setNode_ _ _ _ _ (by simp; omega), node__pushObj]
      simp [hane2]
    have hae : ((m.pushObj (some x)).setNode_ a none).node_ a = some none := by
      rw [node__setNode_ _ _ _ _ (by simp; omega)]
      simp
    have hl : ((m.pushObj (some x)).setNode_ a none).load x = some ⟨v, n⟩ := hx
    refine ⟨_, _, ctorMove_eq ha hcap, fun e => hane e.symm, Get_empty hae, Get_owner hc hl,
      hl, ?_, rfl, rfl⟩
    intro τ conv
    exact ⟨UseCount_empty conv hae, UseCount_owner conv hc hl⟩
  · intro b q hne hb
    obtain ⟨m3, hrun, hnode, hnone, hsome⟩ := assignMove_views hw hb ha hne
    have hae : m3.node_ a = some none := by
      rw [hnode]
      simp
    have hbe : m3.node_ b = some (some x) := by
      rw [hnode]
      simp [hne]
    have hn2 : q = some x → n ≠ 1 := by
      intro e
      rw [e] at hb
      have h2 := two_le_refs hb ha hne
      have h3 := hw.counts x _ hx
      simp at h3
      omega
    have hload : m3.load x = some ⟨v, if q = some x then n - 1 else n⟩ := by
      rcases q with _ | y
      · rw [(hnone rfl).1, hx]
        simp
      · by_cases hy : y = x
        · subst hy
          rw [(hsome y _ rfl hx).1]
          have := hn2 rfl
          simp [this]
        · obtain ⟨ny, hny⟩ := hw.load_of_node_ hb
          rw [(hsome y ny rfl hny).1]
          have hxy : ¬ x = y := fun e => hy e.symm
          simp [hxy, hx, hy]
    refine ⟨m3, hrun, Get_empty hae, Get_owner hbe hload, hload, ?_, ?_, ?_, ?_⟩
    · intro τ conv
      exact ⟨UseCount_empty conv hae, UseCount_owner conv hbe hload⟩
    · intro e
      exact (hnone e).2
    · intro y w c e hl
      obtain ⟨h1, h2, h3⟩ := hsome y ⟨w, c⟩ e hl
      refine ⟨?_, h2, h3⟩
      rw [h1]
      simp
    · intro u hu hnot
      rcases q with _ | y
      · rw [(hnone rfl).2.1]
      · obtain ⟨ny, hny⟩ := hw.load_of_node_ hb
        rw [(hsome y ny rfl hny).2.1]
        by_cases hc1 : ny.strong_counter = 1
        · have hyx : y ≠ x := by
            intro e
            subst e
            rw [hx] at hny
            simp at hny
            rw [← hny] at hc1
            exact hn2 rfl hc1
          have hw1 : ny.ptr ≠ some u := by
            intro e
            apply hnot y rfl hyx
            rw [hny]
            congr 1
            cases ny
            simp at e hc1
            simp [e, hc1]
          simp only [hc1, if_true, List.count_append]
          rcases hp : ny.ptr with _ | w
          · simp
          · have hwu : w ≠ u := fun e => hw1 (by rw [hp, e])
            simp [List.count_singleton, hwu]
        · simp [hc1]

/-- Witness for C6 amended: `a` is one of two owners of a block; among the other
objects one is the sole owner of another block, which the move assignment frees. -/
theorem move_leaves_source_empty_witness :
    ((⟨[some ⟨some 7, 2⟩, some ⟨some 8, 1⟩],
        [some (some 0), some (some 0), some (some 1)], [], []⟩ : Mem).liveObjs < SIZE_MAX →
      ∃ m1 c, ctorMove ⟨[some ⟨some 7, 2⟩, some ⟨some 8, 1⟩],
        [some (some 0), some (some 0), some (some 1)], [], []⟩ 0 = some (m1, c) ∧ c ≠ 0 ∧
      Get m1 0 = some none ∧ Get m1 c = some (some 7) ∧ m1.load 0 = some ⟨some 7, 2⟩ ∧
      (∀ (τ : Type) (conv : Nat → τ),
        UseCount conv m1 0 = some (conv 0) ∧ UseCount conv m1 c = some (conv 2)) ∧
      m1.freedPtrs = [] ∧ m1.freedNodes = []) ∧
    (∀ b q, b ≠ 0 →
      (⟨[some ⟨some 7, 2⟩, some ⟨some 8, 1⟩],
        [some (some 0), some (some 0), some (some 1)], [], []⟩ : Mem).node_ b = some q →
      ∃ m1, assignMove ⟨[some ⟨some 7, 2⟩, some ⟨some 8, 1⟩],
          [some (some 0), some (some 0), some (some 1)], [], []⟩ b 0 = some m1 ∧
        Get m1 0 = some none ∧ Get m1 b = some (some 7) ∧
        m1.load 0 = some ⟨some 7, if q = some 0 then 2 - 1 else 2⟩ ∧
        (∀ (τ : Type) (conv : Nat → τ),
          UseCount conv m1 0 = some (conv 0) ∧
          UseCount conv m1 b = some (conv (if q = some 0 then 2 - 1 else 2))) ∧
        (q = none → m1.freedPtrs = [] ∧ m1.freedNodes = []) ∧
        (∀ y w c, q = some y →
          (⟨[some ⟨some 7, 2⟩, some ⟨some 8, 1⟩],
            [some (some 0), some (some 0), some (some 1)], [], []⟩ : Mem).load y
            = some ⟨w, c⟩ →
          m1.load y = (if c = 1 then none else some ⟨w, c - 1⟩) ∧
          m1.freedPtrs = [] ++ (if c = 1 then w.toList else []) ∧
          m1.freedNodes = [] ++ (if c = 1 then [y] else [])) ∧
        (∀ u, some 7 = some u →
          (∀ y, q = some y → y ≠ 0 →
            (⟨[some ⟨some 7, 2⟩, some ⟨some 8, 1⟩],
              [some (some 0), some (some 0), some (some 1)], [], []⟩ : Mem).load y
              ≠ some ⟨some u, 1⟩) →
          m1.freedPtrs.count u = List.count u [])) :=
  move_leaves_source_empty
    ⟨[some ⟨some 7, 2⟩, some ⟨some 8, 1⟩], [some (some 0), some (some 0), some (some 1)], [], []⟩
    ⟨[.ctorRaw (some 7), .ctorCopy 0, .ctorRaw (some 8)], by decide⟩ 0 0 (some 7) 2
    (by decide) (by decide)

/-- C7. Self copy assignment is a no-op: in a reachable memory with room for the
temporary, `p = p` runs its three steps (copy-construct `tmp` from `p`, swap,
destroy `tmp`) and afterwards `Get()` and `UseCount()` of `p` return what they
returned before, every control block is as before and nothing is freed. When `p`
references a block with count `c`, the count is `c + 1` after the copy and after the
swap and `c` at the end, with `c ≥ 1`: it never reaches zero. -/
theorem self_assignCopy_noop (m : Mem) (hm : Reachable m) (p : Nat) (q : Option Nat)
    (hp : m.node_ p = some q) (hcap : m.liveObjs < SIZE_MAX) :
    ∃ m1 tmp m2 m3, ctorCopy m p = some (m1, tmp) ∧ Swap m1 p tmp = some m2 ∧
      dtor m2 tmp = some m3 ∧ assignCopy m p p = some m3 ∧
      m3.node_ p = some q ∧
      (∃ g, Get m p = some g ∧ Get m3 p = some g) ∧
      (∀ (τ : Type) (conv : Nat → τ), ∃ u,
        UseCount conv m p = some u ∧ UseCount conv m3 p = some u) ∧
      (∀ b, m3.load b = m.load b) ∧
      m3.freedPtrs = m.freedPtrs ∧ m3.freedNodes = m.freedNodes ∧
      (∀ a v c, q = some a → m.load a = some ⟨v, c⟩ →
        1 ≤ c ∧ m1.load a = some ⟨v, c + 1⟩ ∧ m2.load a = some ⟨v, c + 1⟩ ∧
        m3.load a = some ⟨v, c⟩) := by
  have hw := hm.wf
  have hpl := node__lt m hp
  have hpne : p ≠ m.objs.length := Nat.ne_of_lt hpl
  rcases q with _ | a
  · have hcopy := ctorCopy_empty hp hcap
    have hw1 := wf_ctorCopy hw hcopy
    have hp1 : (m.pushObj none).node_ p = some none := by simp [node__pushObj, hpne, hp]
    have ht1 : (m.pushObj none).node_ m.objs.length = some none := by simp [node__pushObj]
    obtain ⟨m3, hrun, hnode, hnone, -⟩ := swap_dtor_tmp hw1 hp1 ht1
    have hsw := Swap_eq hp1 ht1
    have hd : dtor (((m.pushObj none).setNode_ p none).setNode_ m.objs.length none)
        m.objs.length = some m3 := by simpa [hsw] using hrun
    have hp3 : m3.node_ p = some none := by
      rw [hnode]
      simp [hpne]
    obtain ⟨hl3, hf3, hg3⟩ := hnone rfl
    refine ⟨_, _, _, m3, hcopy, hsw, hd, ?_, hp3, ?_, ?_, ?_, ?_, ?_, ?_⟩
    · rw [assignCopy_eq hcopy]
      exact hrun
    · exact ⟨none, Get_empty hp, Get_empty hp3⟩
    · intro τ conv
      exact ⟨conv 0, UseCount_empty conv hp, UseCount_empty conv hp3⟩
    · intro b
      rw [hl3]
      rfl
    · rw [hf3]
      rfl
    · rw [hg3]
      rfl
    · intro a v c e
      simp at e
  · obtain ⟨n, hn⟩ := hw.load_of_node_ hp
    have hpos := hw.counter_pos hn
    have hcopy := ctorCopy_owner hw hp hn hcap
    have hw1 := wf_copiedMem hw hn hcap
    have hp1 : (copiedMem m a n).node_ p = some (some a) := by
      simp [node__copiedMem, hpne, hp]
    have ht1 : (copiedMem m a n).node_ m.objs.length = some (some a) := by
      simp [node__copiedMem]
    have hl1 : (copiedMem m a n).load a = some ⟨n.ptr, n.strong_counter + 1⟩ := by
      simp [load_copiedMem hn]
    obtain ⟨m3, hrun, hnode, -, hsome⟩ := swap_dtor_tmp hw1 hp1 ht1
    have hsw := Swap_eq hp1 ht1
    have hd : dtor (((copiedMem m a n).setNode_ p (some a)).setNode_ m.objs.length (some a))
        m.objs.length = some m3 := by simpa [hsw] using hrun
    have hp3 : m3.node_ p = some (some a) := by
      rw [hnode]
      simp [hpne]
    obtain ⟨hl3, hf3, hg3⟩ := hsome a _ rfl hl1
    have hne1 : n.strong_counter + 1 ≠ 1 := by omega
    have hload : ∀ b, m3.load b = m.load b := by
      intro b
      rw [hl3, load_copiedMem hn]
      by_cases hb : b = a
      · subst hb
        simp [hne1, hn]
      · simp [hb]
    have hla : m3.load a = some n := by rw [hload, hn]
    refine ⟨_, _, _, m3, hcopy, hsw, hd, ?_, hp3, ?_, ?_, hload, ?_, ?_, ?_⟩
    · rw [assignCopy_eq hcopy]
      exact hrun
    · exact ⟨n.ptr, Get_owner hp hn, Get_owner hp3 hla⟩
    · intro τ conv
      exact ⟨conv n.strong_counter, UseCount_owner conv hp hn, UseCount_owner conv hp3 hla⟩
    · rw [hf3]
      simp [hne1, copiedMem]
    · rw [hg3]
      simp [hne1, copiedMem]
    · intro a1 v c e hl
      simp at e
      subst e
      rw [hn] at hl
      simp at hl
      subst hl
      exact ⟨hpos, hl1, hl1, hla⟩

/-- Witness for C7: the self-assignment of the `Assignment` test, on a sole owner. -/
theorem self_assignCopy_noop_witness :
    ∃ m1 tmp m2 m3, ctorCopy ⟨[some ⟨some 13, 1⟩], [some (some 0)], [], []⟩ 0 = some (m1, tmp) ∧
      Swap m1 0 tmp = some m2 ∧ dtor m2 tmp = some m3 ∧
      assignCopy ⟨[some ⟨some 13, 1⟩], [some (some 0)], [], []⟩ 0 0 = some m3 ∧
      m3.node_ 0 = some (some 0) ∧
      (∃ g, Get ⟨[some ⟨some 13, 1⟩], [some (some 0)], [], []⟩ 0 = some g ∧
        Get m3 0 = some g) ∧
      (∀ (τ : Type) (conv : Nat → τ), ∃ u,
        UseCount conv ⟨[some ⟨some 13, 1⟩], [some (some 0)], [], []⟩ 0 = some u ∧
        UseCount conv m3 0 = some u) ∧
      (∀ b, m3.load b = (⟨[some ⟨some 13, 1⟩], [some (some 0)], [], []⟩ : Mem).load b) ∧
      m3.freedPtrs = [] ∧ m3.freedNodes = [] ∧
      (∀ a v c, some 0 = some a →
        (⟨[some ⟨some 13, 1⟩], [some (some 0)], [], []⟩ : Mem).load a = some ⟨v, c⟩ →
        1 ≤ c ∧ m1.load a = some ⟨v, c + 1⟩ ∧ m2.load a = some ⟨v, c + 1⟩ ∧
        m3.load a = some ⟨v, c⟩) :=
  self_assignCopy_noop ⟨[some ⟨some 13, 1⟩], [some (some 0)], [], []⟩
    ⟨[.ctorRaw (some 13)], by decide⟩ 0 (some 0) (by decide) (by decide)

/-- C8 fails on the code. A sole owner `p` of the value 7 is move-assigned to
itself: `Release()` runs first, deletes the value and the control block and empties
`p`; then `node_ = other.node_` reads the field just cleared. Afterwards `Get()` is
null, `UseCount()` is 0 and the value has been freed. -/
theorem self_assignMove_frees_sole_owner :
    run Mem.empty [.ctorRaw (some 7)] = some ⟨[some ⟨some 7, 1⟩], [some (some 0)], [], []⟩
    ∧ Get ⟨[some ⟨some 7, 1⟩], [some (some 0)], [], []⟩ 0 = some (some 7)
    ∧ UseCount id ⟨[some ⟨some 7, 1⟩], [some (some 0)], [], []⟩ 0 = some 1
    ∧ assignMove ⟨[some ⟨some 7, 1⟩], [some (some 0)], [], []⟩ 0 0
      = some ⟨[none], [some none], [7], [0]⟩
    ∧ Get ⟨[none], [some none], [7], [0]⟩ 0 = some none
    ∧ UseCount id ⟨[none], [some none], [7], [0]⟩ 0 = some 0 := by
  decide

/-- C9. Reset on a shared pointer: in a reachable memory with room for the temporary,
let the distinct objects `a` and `b` reference block `x` holding `v1` with count `n`
(so `n ≥ 2`), and let `v2` be any raw pointer. After `a.Reset(v2)`: nothing is freed,
`b` returns `v1` with `UseCount()` `n - 1`, and `a` returns `v2` with `UseCount()` 1.
After `a.Reset()` instead: `a` is empty with `UseCount()` 0, `b` returns `v1` with
`UseCount()` `n - 1`, and nothing is freed. -/
theorem Reset_on_shared (m : Mem) (hm : Reachable m) (a b x : Nat) (v1 : Option Nat)
    (n : Nat) (hab : a ≠ b) (ha : m.node_ a = some (some x)) (hb : m.node_ b = some (some x))
    (hx : m.load x = some ⟨v1, n⟩) (hcap : m.liveObjs < SIZE_MAX) (v2 : Option Nat) :
    2 ≤ n ∧
    (∃ m1, ResetRaw m a v2 = some m1 ∧
      Get m1 a = some v2 ∧ Get m1 b = some v1 ∧ m1.load x = some ⟨v1, n - 1⟩ ∧
      (∀ (τ : Type) (conv : Nat → τ),
        UseCount conv m1 a = some (conv 1) ∧ UseCount conv m1 b = some (conv (n - 1))) ∧
      m1.freedPtrs = m.freedPtrs ∧ m1.freedNodes = m.freedNodes) ∧
    (∃ m1, Reset m a = some m1 ∧
      Get m1 a = some none ∧ Get m1 b = some v1 ∧ m1.load x = some ⟨v1, n - 1⟩ ∧
      (∀ (τ : Type) (conv : Nat → τ),
        UseCount conv m1 a = some (conv 0) ∧ UseCount conv m1 b = some (conv (n - 1))) ∧
      m1.freedPtrs = m.freedPtrs ∧ m1.freedNodes = m.freedNodes) := by
  have hw := hm.wf
  have hal := node__lt m ha
  have hbl := node__lt m hb
  have hxl := load_lt m hx
  have hane : a ≠ m.objs.length := Nat.ne_of_lt hal
  have hbne : b ≠ m.objs.length := Nat.ne_of_lt hbl
  have hba : b ≠ a := fun e => hab e.symm
  have hxne : x ≠ m.nodes.length := Nat.ne_of_lt hxl
  have h2 : 2 ≤ n := by
    have := two_le_refs ha hb hab
    have h3 := hw.counts x _ hx
    simp at h3
    omega
  have hn1 : n ≠ 1 := by omega
  refine ⟨h2, ?_, ?_⟩
  · have hc : ctorRaw m v2
        = some ((m.pushNode ⟨v2, 1⟩).pushObj (some m.nodes.length), m.objs.length) := by
      simp [ctorRaw, Mem.newNode, Mem.newObj, hcap]
    have hw1 := wf_ctorRaw hw hc
    have ha1 : ((m.pushNode ⟨v2, 1⟩).pushObj (some m.nodes.length)).node_ a
        = some (some x) := by
      simp [node__pushObj, hane, ha]
    have hb1 : ((m.pushNode ⟨v2, 1⟩).pushObj (some m.nodes.length)).node_ b
        = some (some x) := by
      simp [node__pushObj, hbne, hb]
    have ht1 : ((m.pushNode ⟨v2, 1⟩).pushObj (some m.nodes.length)).node_ m.objs.length
        = some (some m.nodes.length) := by
      simp [node__pushObj]
    have hx1 : ((m.pushNode ⟨v2, 1⟩).pushObj (some m.nodes.length)).load x
        = some ⟨v1, n⟩ := by
      simp [load_pushNode, hxne, hx]
    have hL1 : ((m.pushNode ⟨v2, 1⟩).pushObj (some m.nodes.length)).load m.nodes.length
        = some ⟨v2, 1⟩ := by
      simp [load_pushNode]
    obtain ⟨m3, hrun, hnode, -, hsome⟩ := swap_dtor_tmp hw1 ha1 ht1
    obtain ⟨hl3, hf3, hg3⟩ := hsome x _ rfl hx1
    have ha3 : m3.node_ a = some (some m.nodes.length) := by
      rw [hnode]
      simp [hane]
    have hb3 : m3.node_ b = some (some x) := by
      rw [hnode, hb1]
      simp [hbne, hba]
    have hx3 : m3.load x = some ⟨v1, n - 1⟩ := by
      rw [hl3]
      simp [hn1]
    have hL3 : m3.load m.nodes.length = some ⟨v2, 1⟩ := by
      have hxne2 : ¬ m.nodes.length = x := fun e => hxne e.symm
      rw [hl3, hL1]
      simp [hxne2]
    refine ⟨m3, ?_, Get_owner ha3 hL3, Get_owner hb3 hx3, hx3, ?_, ?_, ?_⟩
    · rw [ResetRaw_eq hc]
      exact hrun
    · intro τ conv
      exact ⟨UseCount_owner conv ha3 hL3, UseCount_owner conv hb3 hx3⟩
    · rw [hf3]
      simp [hn1]
    · rw [hg3]
      simp [hn1]
  · have hc : ctor m = some (m.pushObj none, m.objs.length) := by
      simp [ctor, Mem.newObj, hcap]
    have hw1 := wf_ctor hw hc
    have ha1 : (m.pushObj none).node_ a = some (some x) := by
      simp [node__pushObj, hane, ha]
    have hb1 : (m.pushObj none).node_ b = some (some x) := by
      simp [node__pushObj, hbne, hb]
    have ht1 : (m.pushObj none).node_ m.objs.length = some none := by
      simp [node__pushObj]
    have hx1 : (m.pushObj none).load x = some ⟨v1, n⟩ := hx
    obtain ⟨m3, hrun, hnode, -, hsome⟩ := swap_dtor_tmp hw1 ha1 ht1
    obtain ⟨hl3, hf3, hg3⟩ := hsome x _ rfl hx1
    have ha3 : m3.node_ a = some none := by
      rw [hnode]
      simp [hane]
    have hb3 : m3.node_ b = some (some x) := by
      rw [hnode, hb1]
      simp [hbne, hba]
    have hx3 : m3.load x = some ⟨v1, n - 1⟩ := by
      rw [hl3]
      simp [hn1]
    refine ⟨m3, ?_, Get_empty ha3, Get_owner hb3 hx3, hx3, ?_, ?_, ?_⟩
    · rw [Reset_eq hc]
      exact hrun
    · intro τ conv
      exact ⟨UseCount_empty conv ha3, UseCount_owner conv hb3 hx3⟩
    · rw [hf3]
      simp [hn1]
    · rw [hg3]
      simp [hn1]

/-- Witness for C9: the "reset shared" block of the `Shared Reset` test. -/
theorem Reset_on_shared_witness :
    2 ≤ 2 ∧
    (∃ m1, ResetRaw ⟨[some ⟨some 5, 2⟩], [some (some 0), some (some 0)], [], []⟩ 0 (some 7)
        = some m1 ∧
      Get m1 0 = some (some 7) ∧ Get m1 1 = some (some 5) ∧
      m1.load 0 = some ⟨some 5, 2 - 1⟩ ∧
      (∀ (τ : Type) (conv : Nat → τ),
        UseCount conv m1 0 = some (conv 1) ∧ UseCount conv m1 1 = some (conv (2 - 1))) ∧
      m1.freedPtrs = [] ∧ m1.freedNodes = []) ∧
    (∃ m1, Reset ⟨[some ⟨some 5, 2⟩], [some (some 0), some (some 0)], [], []⟩ 0 = some m1 ∧
      Get m1 0 = some none ∧ Get m1 1 = some (some 5) ∧
      m1.load 0 = some ⟨some 5, 2 - 1⟩ ∧
      (∀ (τ : Type) (conv : Nat → τ),
        UseCount conv m1 0 = some (conv 0) ∧ UseCount conv m1 1 = some (conv (2 - 1))) ∧
      m1.freedPtrs = [] ∧ m1.freedNodes = []) :=
  Reset_on_shared ⟨[some ⟨some 5, 2⟩], [some (some 0), some (some 0)], [], []⟩
    ⟨[.ctorRaw (some 5), .ctorCopy 0], by decide⟩ 0 1 0 (some 5) 2 (by decide) (by decide)
    (by decide) (by decide) (by decide) (some 7)

/-- C10. `Release()` in a reachable memory. On an empty pointer it returns null and
leaves the memory as it was. On a pointer referencing block `a` holding `v` with
count `n` it returns `v` and leaves the pointer empty (`Get()` null, `UseCount()` 0);
when `n = 1` the value and the block are deleted, otherwise the block stays with
count `n - 1` and nothing is deleted; no other block changes. -/
theorem Release_spec (m : Mem) (hm : Reachable m) (p : Nat) (q : Option Nat)
    (hp : m.node_ p = some q) :
    (q = none → Release m p = some (m, none)) ∧
    (∀ a v n, q = some a → m.load a = some ⟨v, n⟩ →
      ∃ m1, Release m p = some (m1, v) ∧
        m1.node_ p = some none ∧ Get m1 p = some none ∧
        (∀ (τ : Type) (conv : Nat → τ), UseCount conv m1 p = some (conv 0)) ∧
        m1.load a = (if n = 1 then none else some ⟨v, n - 1⟩) ∧
        (∀ b, b ≠ a → m1.load b = m.load b) ∧
        m1.freedPtrs = m.freedPtrs ++ (if n = 1 then v.toList else []) ∧
        m1.freedNodes = m.freedNodes ++ (if n = 1 then [a] else [])) := by
  have hw := hm.wf
  constructor
  · intro e
    subst e
    exact Release_empty hp
  · intro a v n e hl
    subst e
    have hp1 : (releasedMem m p a ⟨v, n⟩).node_ p = some none := by
      rw [node__releasedMem hp]
      simp
    refine ⟨_, Release_owner hw hp hl, hp1, Get_empty hp1, ?_, ?_, ?_, ?_, ?_⟩
    · intro τ conv
      exact UseCount_empty conv hp1
    · rw [load_releasedMem hl]
      simp
    · intro b hb
      rw [load_releasedMem hl]
      simp [hb]
    · exact freedPtrs_releasedMem
    · exact freedNodes_releasedMem

/-- Witness for C10: the last owner releases, so value and block are deleted. -/
theorem Release_spec_witness :
    ((some 0 : Option Nat) = none →
      Release ⟨[some ⟨some 7, 1⟩], [some (some 0)], [], []⟩ 0
        = some (⟨[some ⟨some 7, 1⟩], [some (some 0)], [], []⟩, none)) ∧
    (∀ a v n, some 0 = some a →
      (⟨[some ⟨some 7, 1⟩], [some (some 0)], [], []⟩ : Mem).load a = some ⟨v, n⟩ →
      ∃ m1, Release ⟨[some ⟨some 7, 1⟩], [some (some 0)], [], []⟩ 0 = some (m1, v) ∧
        m1.node_ 0 = some none ∧ Get m1 0 = some none ∧
        (∀ (τ : Type) (conv : Nat → τ), UseCount conv m1 0 = some (conv 0)) ∧
        m1.load a = (if n = 1 then none else some ⟨v, n - 1⟩) ∧
        (∀ b, b ≠ a →
          m1.load b = (⟨[some ⟨some 7, 1⟩], [some (some 0)], [], []⟩ : Mem).load b) ∧
        m1.freedPtrs = [] ++ (if n = 1 then v.toList else []) ∧
        m1.freedNodes = [] ++ (if n = 1 then [a] else [])) :=
  Release_spec ⟨[some ⟨some 7, 1⟩], [some (some 0)], [], []⟩
    ⟨[.ctorRaw (some 7)], by decide⟩ 0 (some 0) (by decide)

/-- C11 fails on the code. `UseCount()` is declared to return `T`, not `size_t`, so
the count is converted to the element type. For `SharedPtr<bool>` with two owners
the control block holds `strong_counter` 2 and two objects reference it, yet
`UseCount()` returns `true`, that is 1; already for `unsigned char` a count of 256
comes back as 0. -/
theorem UseCount_bool_two_owners :
    run Mem.empty [.ctorRaw (some 7), .ctorCopy 0]
      = some ⟨[some ⟨some 7, 2⟩], [some (some 0), some (some 0)], [], []⟩
    ∧ (⟨[some ⟨some 7, 2⟩], [some (some 0), some (some 0)], [], []⟩ : Mem).load 0
      = some ⟨some 7, 2⟩
    ∧ (Mem.owners ⟨[some ⟨some 7, 2⟩], [some (some 0), some (some 0)], [], []⟩ 0).length = 2
    ∧ UseCount (ElemTy.ofSizeT .bool)
        ⟨[some ⟨some 7, 2⟩], [some (some 0), some (some 0)], [], []⟩ 0 = some 1
    ∧ ElemTy.ofSizeT (.unsignedInt 8) 256 = 0 := by
  decide

/-- C19. The reference count never underflows: in every memory reachable by the
public operations, a control block referenced by a live `SharedPtr` exists and has
`strong_counter` at least 1, the `size_t` decrement applied to it does not wrap
(`--c` yields `c - 1`), and every allocated block has a counter of at least 1 and
at least one live object referencing it. -/
theorem strong_counter_never_underflows (ops : List Op) (m : Mem)
    (h : run Mem.empty ops = some m) :
    (∀ i a, m.node_ i = some (some a) →
      ∃ n, m.load a = some n ∧ 1 ≤ n.strong_counter ∧
        decr n.strong_counter + 1 = n.strong_counter) ∧
    (∀ a n, m.load a = some n → 1 ≤ n.strong_counter ∧ (m.owners a).length ≠ 0) := by
  have hw := wf_run wf_empty h
  constructor
  · intro i a hi
    obtain ⟨n, hn⟩ := hw.load_of_node_ hi
    have h1 := hw.counter_pos hn
    have h2 := hw.counter_le hn
    have h3 := hw.cap
    refine ⟨n, hn, h1, ?_⟩
    rw [decr_eq h1 (by omega)]
    omega
  · intro a n hn
    have h1 := hw.counter_pos hn
    have h2 := hw.owned a n hn
    rw [owners_length]
    exact ⟨h1, by omega⟩

/-- Witness for C19: two owners of one block after a third was destroyed. -/
theorem strong_counter_never_underflows_witness :
    (∀ i a, (⟨[some ⟨some 7, 2⟩], [some (some 0), none, some (some 0)], [], []⟩ : Mem).node_ i
        = some (some a) →
      ∃ n, (⟨[some ⟨some 7, 2⟩], [some (some 0), none, some (some 0)], [], []⟩ : Mem).load a
          = some n ∧ 1 ≤ n.strong_counter ∧
        decr n.strong_counter + 1 = n.strong_counter) ∧
    (∀ a n, (⟨[some ⟨some 7, 2⟩], [some (some 0), none, some (some 0)], [], []⟩ : Mem).load a
        = some n →
      1 ≤ n.strong_counter ∧
      (Mem.owners ⟨[some ⟨some 7, 2⟩], [some (some 0), none, some (some 0)], [], []⟩
        a).length ≠ 0) :=
  strong_counter_never_underflows [.ctorRaw (some 7), .ctorCopy 0, .ctorCopy 1, .dtor 1]
    ⟨[some ⟨some 7, 2⟩], [some (some 0), none, some (some 0)], [], []⟩ (by decide)

theorem list_set_self {α : Type} (l : List α) (i : Nat) (x : α) (h : l[i]? = some x) :
    l.set i x = l := by
  induction l generalizing i with
  | nil => simp
  | cons y l ih =>
    cases i with
    | zero =>
      simp at h
      simp [h]
    | succ i =>
      simp at h
      simp [ih i h]

theorem setNode__self {m : Mem} {i : Nat} {p : Option Nat} (h : m.node_ i = some p) :
    m.setNode_ i p = m := by
  have hx : m.objs[i]? = some (some p) := by
    unfold Mem.node_ at h
    rcases hq : m.objs[i]? with _ | x
    · rw [hq] at h
      simp at h
    · rw [hq] at h
      simp at h
      rw [h]
  have hl : m.objs.set i (some p) = m.objs := list_set_self _ _ _ hx
  cases m
  simp only [Mem.setNode_] at hl ⊢
  rw [hl]

theorem observe_of_node_ {m : Mem} (hw : WF m) {i : Nat} {q : Option Nat}
    (h : m.node_ i = some q) :
    (∃ g, Get m i = some g ∧
      ∀ (m1 : Mem) (j : Nat), m1.node_ j = some q → (∀ x, m1.load x = m.load x) →
        Get m1 j = some g) ∧
    (∀ (τ : Type) (conv : Nat → τ), ∃ u, UseCount conv m i = some u ∧
      ∀ (m1 : Mem) (j : Nat), m1.node_ j = some q → (∀ x, m1.load x = m.load x) →
        UseCount conv m1 j = some u) := by
  rcases q with _ | a
  · refine ⟨⟨none, Get_empty h, fun m1 j hj _ => Get_empty hj⟩, fun τ conv => ?_⟩
    exact ⟨conv 0, UseCount_empty conv h, fun m1 j hj _ => UseCount_empty conv hj⟩
  · obtain ⟨n, hn⟩ := hw.load_of_node_ h
    refine ⟨⟨n.ptr, Get_owner h hn, fun m1 j hj hl => ?_⟩, fun τ conv => ?_⟩
    · exact Get_owner hj ((hl a).trans hn)
    · exact ⟨conv n.strong_counter, UseCount_owner conv h hn,
        fun m1 j hj hl => UseCount_owner conv hj ((hl a).trans hn)⟩

/-- C13. `Swap` exchanges the two `node_` fields and nothing else: in a reachable
memory, after `a.Swap(b)` the object `a` returns from `Get()` and `UseCount()` what
`b` returned before and the other way round, the control blocks (hence every
`strong_counter`) are as before and nothing is freed; when `a` and `b` are the same
object the memory is identical to the one before. -/
theorem Swap_exchanges (m : Mem) (hm : Reachable m) (a b : Nat) (pa pb : Option Nat)
    (ha : m.node_ a = some pa) (hb : m.node_ b = some pb) :
    ∃ m1, Swap m a b = some m1 ∧
      m1.node_ a = some pb ∧ m1.node_ b = some pa ∧
      (∃ ga gb, Get m a = some ga ∧ Get m b = some gb ∧
        Get m1 a = some gb ∧ Get m1 b = some ga) ∧
      (∀ (τ : Type) (conv : Nat → τ), ∃ ua ub,
        UseCount conv m a = some ua ∧ UseCount conv m b = some ub ∧
        UseCount conv m1 a = some ub ∧ UseCount conv m1 b = some ua) ∧
      m1.nodes = m.nodes ∧ m1.freedPtrs = m.freedPtrs ∧ m1.freedNodes = m.freedNodes ∧
      (a = b → m1 = m) := by
  have hw := hm.wf
  have hn := node__swapped ha hb
  have hna : ((m.setNode_ a pb).setNode_ b pa).node_ a = some pb := by
    rw [hn]
    by_cases e : a = b
    · subst e
      rw [ha] at hb
      simp at hb
      simp [hb]
    · simp [e]
  have hnb : ((m.setNode_ a pb).setNode_ b pa).node_ b = some pa := by
    rw [hn]
    simp
  obtain ⟨⟨ga, hga, hga1⟩, hua⟩ := observe_of_node_ hw ha
  obtain ⟨⟨gb, hgb, hgb1⟩, hub⟩ := observe_of_node_ hw hb
  refine ⟨_, Swap_eq ha hb, hna, hnb, ?_, ?_, rfl, rfl, rfl, ?_⟩
  · exact ⟨ga, gb, hga, hgb, hgb1 _ a hna (fun x => rfl), hga1 _ b hnb (fun x => rfl)⟩
  · intro τ conv
    obtain ⟨ua, h1, h2⟩ := hua τ conv
    obtain ⟨ub, h3, h4⟩ := hub τ conv
    exact ⟨ua, ub, h1, h3, h4 _ a hna (fun x => rfl), h2 _ b hnb (fun x => rfl)⟩
  · intro e
    subst e
    rw [ha] at hb
    simp at hb
    subst hb
    rw [setNode__self ha, setNode__self ha]

/-- Witness for C13: the step `b.Swap(c)` of the `Swap` test, `b` sole owner of one
block and `c` one of two owners of another. -/
theorem Swap_exchanges_witness :
    ∃ m1, Swap ⟨[some ⟨some 1, 1⟩, some ⟨some 2, 2⟩],
        [some (some 0), some (some 1), some (some 1)], [], []⟩ 0 1 = some m1 ∧
      m1.node_ 0 = some (some 1) ∧ m1.node_ 1 = some (some 0) ∧
      (∃ ga gb,
        Get ⟨[some ⟨some 1, 1⟩, some ⟨some 2, 2⟩],
          [some (some 0), some (some 1), some (some 1)], [], []⟩ 0 = some ga ∧
        Get ⟨[some ⟨some 1, 1⟩, some ⟨some 2, 2⟩],
          [some (some 0), some (some 1), some (some 1)], [], []⟩ 1 = some gb ∧
        Get m1 0 = some gb ∧ Get m1 1 = some ga) ∧
      (∀ (τ : Type) (conv : Nat → τ), ∃ ua ub,
        UseCount conv ⟨[some ⟨some 1, 1⟩, some ⟨some 2, 2⟩],
          [some (some 0), some (some 1), some (some 1)], [], []⟩ 0 = some ua ∧
        UseCount conv ⟨[some ⟨some 1, 1⟩, some ⟨some 2, 2⟩],
          [some (some 0), some (some 1), some (some 1)], [], []⟩ 1 = some ub ∧
        UseCount conv m1 0 = some ub ∧ UseCount conv m1 1 = some ua) ∧
      m1.nodes = [some ⟨some 1, 1⟩, some ⟨some 2, 2⟩] ∧ m1.freedPtrs = [] ∧
      m1.freedNodes = [] ∧
      (0 = 1 → m1 = ⟨[some ⟨some 1, 1⟩, some ⟨some 2, 2⟩],
        [some (some 0), some (some 1), some (some 1)], [], []⟩) :=
  Swap_exchanges
    ⟨[some ⟨some 1, 1⟩, some ⟨some 2, 2⟩], [some (some 0), some (some 1), some (some 1)], [], []⟩
    ⟨[.ctorRaw (some 1), .ctorRaw (some 2), .ctorCopy 1], by decide⟩ 0 1 (some 0) (some 1)
    (by decide) (by decide)

/-! ## Blocks holding a null pointer -/

theorem nn_of_views {m m1 : Mem} (hn : NonNull m)
    (hl : ∀ b n1, m1.load b = some n1 → ∃ n, m.load b = some n ∧ n.ptr = n1.ptr) :
    NonNull m1 := by
  intro b n1 h1
  obtain ⟨n, h2, h3⟩ := hl b n1 h1
  rw [← h3]
  exact hn b n h2

theorem nn_of_load_eq {m m1 : Mem} (hn : NonNull m) (hl : ∀ b, m1.load b = m.load b) :
    NonNull m1 :=
  nn_of_views hn fun b n1 h1 => ⟨n1, (hl b).symm.trans h1, rfl⟩

theorem nn_Release {m m1 : Mem} {this : Nat} {r : Option Nat} (hw : WF m) (hn : NonNull m)
    (h : Release m this = some (m1, r)) : NonNull m1 := by
  rcases hq : m.node_ this with _ | q
  · simp [Release, hq] at h
  · rcases q with _ | a
    · rw [Release_empty hq] at h
      simp at h
      rw [← h.1]
      exact hn
    · obtain ⟨n, hl⟩ := hw.load_of_node_ hq
      rw [Release_owner hw hq hl] at h
      simp at h
      rw [← h.1]
      refine nn_of_views hn fun b n1 h1 => ?_
      rw [load_releasedMem hl] at h1
      by_cases hb : b = a
      · subst hb
        by_cases hc : n.strong_counter = 1
        · simp [hc] at h1
        · simp [hc] at h1
          exact ⟨n, hl, by rw [← h1]⟩
      · simp [hb] at h1
        exact ⟨n1, h1, rfl⟩

theorem nn_dtor {m m1 : Mem} {this : Nat} (hw : WF m) (hn : NonNull m)
    (h : dtor m this = some m1) : NonNull m1 := by
  unfold dtor at h
  rcases hr : Release m this with _ | ⟨m2, r⟩
  · simp [hr] at h
  · simp [hr] at h
    subst h
    exact nn_of_load_eq (nn_Release hw hn hr) fun b => rfl

theorem nn_Swap {m m1 : Mem} {this other : Nat} (hn : NonNull m)
    (h : Swap m this other = some m1) : NonNull m1 := by
  rcases ht : m.node_ this with _ | t
  · simp [Swap, ht] at h
  rcases hp : m.node_ other with _ | p
  · simp [Swap, ht, hp] at h
  rw [Swap_eq ht hp] at h
  simp at h
  subst h
  exact nn_of_load_eq hn fun b => rfl

theorem nn_ctor {m m1 : Mem} {i : Nat} (hn : NonNull m) (h : ctor m = some (m1, i)) :
    NonNull m1 := by
  obtain ⟨-, rfl, -⟩ := newObj_some h
  exact nn_of_load_eq hn fun b => rfl

theorem nn_ctorMove {m m1 : Mem} {other i : Nat} (hn : NonNull m)
    (h : ctorMove m other = some (m1, i)) : NonNull m1 := by
  rcases hp : m.node_ other with _ | p
  · simp [ctorMove, hp] at h
  by_cases hc : m.liveObjs < SIZE_MAX
  · rw [ctorMove_eq hp hc] at h
    simp at h
    obtain ⟨rfl, -⟩ := h
    exact nn_of_load_eq hn fun b => rfl
  · simp [ctorMove, hp, Mem.newObj, hc] at h

theorem nn_ctorCopy {m m1 : Mem} {other i : Nat} (hw : WF m) (hn : NonNull m)
    (h : ctorCopy m other = some (m1, i)) : NonNull m1 := by
  rcases hp : m.node_ other with _ | p
  · simp [ctorCopy, hp] at h
  by_cases hc : m.liveObjs < SIZE_MAX
  · rcases p with _ | a
    · rw [ctorCopy_empty hp hc] at h
      simp at h
      obtain ⟨rfl, -⟩ := h
      exact nn_of_load_eq hn fun b => rfl
    · obtain ⟨n, hl⟩ := hw.load_of_node_ hp
      rw [ctorCopy_owner hw hp hl hc] at h
      simp at h
      obtain ⟨rfl, -⟩ := h
      refine nn_of_views hn fun b n1 h1 => ?_
      rw [load_copiedMem hl] at h1
      by_cases hb : b = a
      · subst hb
        simp at h1
        exact ⟨n, hl, by rw [← h1]⟩
      · simp [hb] at h1
        exact ⟨n1, h1, rfl⟩
  · simp [ctorCopy, hp, Mem.newObj, hc] at h

theorem nn_ctorRaw {m m1 : Mem} {v i : Nat} (hn : NonNull m)
    (h : ctorRaw m (some v) = some (m1, i)) : NonNull m1 := by
  unfold ctorRaw Mem.newNode at h
  obtain ⟨-, rfl, -⟩ := newObj_some h
  intro b n1 h1
  simp only [load_pushObj, load_pushNode] at h1
  by_cases hb : b = m.nodes.length
  · simp [hb] at h1
    rw [← h1]
    simp
  · simp [hb] at h1
    exact hn b n1 h1

theorem nn_assignMove {m m1 : Mem} {this other : Nat} (hw : WF m) (hn : NonNull m)
    (h : assignMove m this other = some m1) : NonNull m1 := by
  unfold assignMove at h
  rcases hr : Release m this with _ | ⟨m2, r⟩
  · simp [hr] at h
  · simp [hr] at h
    rcases hp : m2.node_ other with _ | p
    · simp [hp] at h
    · simp [hp] at h
      subst h
      exact nn_of_load_eq (nn_Release hw hn hr) fun b => rfl

theorem nn_assignCopy {m m1 : Mem} {this other : Nat} (hw : WF m) (hn : NonNull m)
    (h : assignCopy m this other = some m1) : NonNull m1 := by
  unfold assignCopy at h
  rcases hc : ctorCopy m other with _ | ⟨m2, tmp⟩
  · simp [hc] at h
  · simp [hc] at h
    rcases hs : Swap m2 this tmp with _ | m3
    · simp [hs] at h
    · simp [hs] at h
      exact nn_dtor (wf_Swap (wf_ctorCopy hw hc) hs) (nn_Swap (nn_ctorCopy hw hn hc) hs) h

theorem nn_Reset {m m1 : Mem} {this : Nat} (hw : WF m) (hn : NonNull m)
    (h : Reset m this = some m1) : NonNull m1 := by
  unfold Reset at h
  rcases hc : ctor m with _ | ⟨m2, t⟩
  · simp [hc] at h
  · simp [hc] at h
    rcases hs : Swap m2 t this with _ | m3
    · simp [hs] at h
    · simp [hs] at h
      exact nn_dtor (wf_Swap (wf_ctor hw hc) hs) (nn_Swap (nn_ctor hn hc) hs) h

theorem nn_ResetRaw {m m1 : Mem} {this v : Nat} (hw : WF m) (hn : NonNull m)
    (h : ResetRaw m this (some v) = some m1) : NonNull m1 := by
  unfold ResetRaw at h
  rcases hc : ctorRaw m (some v) with _ | ⟨m2, t⟩
  · simp [hc] at h
  · simp [hc] at h
    rcases hs : Swap m2 t this with _ | m3
    · simp [hs] at h
    · simp [hs] at h
      exact nn_dtor (wf_Swap (wf_ctorRaw hw hc) hs) (nn_Swap (nn_ctorRaw hn hc) hs) h

theorem nn_step {m m1 : Mem} {op : Op} (hw : WF m) (hn : NonNull m)
    (hop : op.nullRaw = false) (h : step m op = some m1) : NonNull m1 := by
  cases op with
  | ctor =>
    simp only [step, Option.map_eq_some', Prod.exists, exists_and_right, exists_eq_right] at h
    obtain ⟨i, h⟩ := h
    exact nn_ctor hn h
  | ctorNull =>
    simp only [step, Option.map_eq_some', Prod.exists, exists_and_right, exists_eq_right] at h
    obtain ⟨i, h⟩ := h
    exact nn_ctor hn h
  | ctorRaw ptr =>
    simp only [step, Option.map_eq_some', Prod.exists, exists_and_right, exists_eq_right] at h
    obtain ⟨i, h⟩ := h
    rcases ptr with _ | v
    · simp [Op.nullRaw] at hop
    · exact nn_ctorRaw hn h
  | ctorMove other =>
    simp only [step, Option.map_eq_some', Prod.exists, exists_and_right, exists_eq_right] at h
    obtain ⟨i, h⟩ := h
    exact nn_ctorMove hn h
  | ctorCopy other =>
    simp only [step, Option.map_eq_some', Prod.exists, exists_and_right, exists_eq_right] at h
    obtain ⟨i, h⟩ := h
    exact nn_ctorCopy hw hn h
  | assignMove this other => exact nn_assignMove hw hn h
  | assignCopy this other => exact nn_assignCopy hw hn h
  | Release this =>
    simp only [step, Option.map_eq_some', Prod.exists, exists_and_right, exists_eq_right] at h
    obtain ⟨r, h⟩ := h
    exact nn_Release hw hn h
  | Reset this => exact nn_Reset hw hn h
  | ResetRaw this ptr =>
    rcases ptr with _ | v
    · simp [Op.nullRaw] at hop
    · exact nn_ResetRaw hw hn h
  | Swap this other => exact nn_Swap hn h
  | dtor this => exact nn_dtor hw hn h

theorem nn_run {ops : List Op} {m m1 : Mem} (hw : WF m) (hn : NonNull m)
    (hops : ∀ op ∈ ops, op.nullRaw = false) (h : run m ops = some m1) : NonNull m1 := by
  induction ops generalizing m with
  | nil =>
    simp [run] at h
    subst h
    exact hn
  | cons op ops ih =>
    simp only [run, Option.bind_eq_some] at h
    obtain ⟨m2, h2, h3⟩ := h
    exact ih (wf_step hw h2) (nn_step hw hn (hops op (List.mem_cons_self _ _)) h2)
      (fun o ho => hops o (List.mem_cons_of_mem _ ho)) h3

theorem nn_empty : NonNull Mem.empty := by
  intro a n h
  simp [Mem.load, Mem.empty] at h

/-- C12 fails on the code. `SharedPtr(T*)` and `Reset(T*)` allocate a control block
without looking at the pointer, while `SharedPtr(nullptr)` and `Reset()` give an
empty pointer. Constructed from a null `T*`, the object references a block with
count 1, so `operator bool` is `true` and `UseCount()` is 1 while `Get()` is null;
the same after `a.Reset(nullptr)` on an empty pointer `a`. -/
theorem null_raw_pointer_gets_a_block :
    run Mem.empty [.ctorRaw none] = some ⟨[some ⟨none, 1⟩], [some (some 0)], [], []⟩
    ∧ operatorBool ⟨[some ⟨none, 1⟩], [some (some 0)], [], []⟩ 0 = some true
    ∧ Get ⟨[some ⟨none, 1⟩], [some (some 0)], [], []⟩ 0 = some none
    ∧ UseCount id ⟨[some ⟨none, 1⟩], [some (some 0)], [], []⟩ 0 = some 1
    ∧ run Mem.empty [.ctor, .ResetRaw 0 none]
      = some ⟨[some ⟨none, 1⟩], [some (some 0), none], [], []⟩
    ∧ operatorBool ⟨[some ⟨none, 1⟩], [some (some 0), none], [], []⟩ 0 = some true
    ∧ Get ⟨[some ⟨none, 1⟩], [some (some 0), none], [], []⟩ 0 = some none := by
  decide

/-- Away from null `T*` arguments the two observers agree: in every memory
reachable by public operations none of which hands a null `T*` to `SharedPtr(T*)` or
`Reset(T*)`, every live pointer has `bool(p) == (p.Get() != null)`; a pointer that
references no control block has `bool` false, `Get()` null and `UseCount()` 0; and
`SharedPtr()` and `SharedPtr(nullptr)` give a pointer that references no control
block. -/
theorem operatorBool_matches_Get (ops : List Op) (m : Mem)
    (h : run Mem.empty ops = some m) (hops : ∀ op ∈ ops, op.nullRaw = false) :
    (∀ i q, m.node_ i = some q →
      ∃ g, Get m i = some g ∧ operatorBool m i = some g.isSome) ∧
    (∀ i, m.node_ i = some none →
      operatorBool m i = some false ∧ Get m i = some none ∧
      ∀ (τ : Type) (conv : Nat → τ), UseCount conv m i = some (conv 0)) ∧
    (∀ m1 i, (ctor m = some (m1, i) ∨ ctorNull m = some (m1, i)) →
      m1.node_ i = some none) := by
  have hw := wf_run wf_empty h
  have hn := nn_run wf_empty nn_empty hops h
  refine ⟨?_, ?_, ?_⟩
  · intro i q hq
    rcases q with _ | a
    · exact ⟨none, Get_empty hq, by simp [operatorBool, hq]⟩
    · obtain ⟨n, hl⟩ := hw.load_of_node_ hq
      refine ⟨n.ptr, Get_owner hq hl, ?_⟩
      have hp := hn a n hl
      rcases hv : n.ptr with _ | v
      · exact absurd hv hp
      · simp [operatorBool, hq]
  · intro i hq
    exact ⟨by simp [operatorBool, hq], Get_empty hq, fun τ conv => UseCount_empty conv hq⟩
  · intro m1 i hc
    have hc1 : ctor m = some (m1, i) := by
      rcases hc with hc | hc
      · exact hc
      · exact hc
    obtain ⟨-, rfl, rfl⟩ := newObj_some hc1
    simp [node__pushObj]

end SharedPtr

namespace UniquePtr

/-! ## Views of the memory after a primitive action -/

theorem ptr__lt {m : Mem} {i : Nat} {q : Option Nat} (h : m.ptr_ i = some q) :
    i < m.objs.length := by
  unfold Mem.ptr_ at h
  by_contra hl
  rw [List.getElem?_eq_none (Nat.le_of_not_lt hl)] at h
  simp at h

theorem ptr__setPtr_ (m : Mem) (i j : Nat) (p : Option Nat) (hi : i < m.objs.length) :
    (m.setPtr_ i p).ptr_ j = if j = i then some p else m.ptr_ j := by
  unfold Mem.ptr_ Mem.setPtr_
  by_cases h : j = i
  · subst h
    simp [hi, List.getElem?_set]
  · have h2 : i ≠ j := fun e => h e.symm
    simp [h, List.getElem?_set_ne h2]

@[simp] theorem freed_setPtr_ (m : Mem) (i : Nat) (p : Option Nat) :
    (m.setPtr_ i p).freed = m.freed := rfl

@[simp] theorem length_objs_setPtr_ (m : Mem) (i : Nat) (p : Option Nat) :
    (m.setPtr_ i p).objs.length = m.objs.length := by
  simp [Mem.setPtr_]

theorem ptr__newObj (m : Mem) (p : Option Nat) (j : Nat) :
    (m.newObj p).1.ptr_ j = if j = m.objs.length then some p else m.ptr_ j := by
  unfold Mem.ptr_ Mem.newObj
  by_cases h : j = m.objs.length
  · subst h
    simp
  · simp only [h, if_false]
    by_cases hl : j < m.objs.length
    · rw [List.getElem?_append_left hl]
    · have h1 : m.objs.length ≤ j := Nat.le_of_not_lt hl
      have h2 : (m.objs ++ [some p]).length ≤ j := by simp; omega
      rw [List.getElem?_eq_none h1, List.getElem?_eq_none h2]

@[simp] theorem freed_newObj (m : Mem) (p : Option Nat) : (m.newObj p).1.freed = m.freed := rfl

@[simp] theorem length_objs_newObj (m : Mem) (p : Option Nat) :
    (m.newObj p).1.objs.length = m.objs.length + 1 := by
  simp [Mem.newObj]

@[simp] theorem snd_newObj (m : Mem) (p : Option Nat) : (m.newObj p).2 = m.objs.length := rfl

theorem ptr__endObj (m : Mem) (i j : Nat) :
    (m.endObj i).ptr_ j = if j = i then none else m.ptr_ j := by
  unfold Mem.ptr_ Mem.endObj
  by_cases h : j = i
  · subst h
    by_cases hl : j < m.objs.length
    · simp [hl, List.getElem?_set]
    · simp [List.getElem?_set, hl]
  · have h2 : i ≠ j := fun e => h e.symm
    simp [h, List.getElem?_set_ne h2]

@[simp] theorem freed_endObj (m : Mem) (i : Nat) : (m.endObj i).freed = m.freed := rfl

@[simp] theorem ptr__deletePtr (m : Mem) (p : Option Nat) (i : Nat) :
    (m.deletePtr p).ptr_ i = m.ptr_ i := by
  cases p <;> rfl

@[simp] theorem length_objs_deletePtr_u (m : Mem) (p : Option Nat) :
    (m.deletePtr p).objs.length = m.objs.length := by
  cases p <;> rfl

theorem freed_deletePtr (m : Mem) (p : Option Nat) :
    (m.deletePtr p).freed = m.freed ++ p.toList := by
  cases p <;> simp [Mem.deletePtr]

theorem setPtr__self {m : Mem} {i : Nat} {p : Option Nat} (h : m.ptr_ i = some p) :
    m.setPtr_ i p = m := by
  have hx : m.objs[i]? = some (some p) := by
    unfold Mem.ptr_ at h
    rcases hq : m.objs[i]? with _ | x
    · rw [hq] at h
      simp at h
    · rw [hq] at h
      simp at h
      rw [h]
  have hl : m.objs.set i (some p) = m.objs := SharedPtr.list_set_self _ _ _ hx
  cases m
  simp only [Mem.setPtr_] at hl ⊢
  rw [hl]

/-! ## Exclusive ownership -/

theorem nodup_append_toList {l : List Nat} {d : Option Nat} (hl : l.Nodup)
    (hd : ∀ u, d = some u → u ∉ l) : (l ++ d.toList).Nodup := by
  rcases d with _ | u
  · simpa using hl
  · have hu := hd u rfl
    simp only [Option.toList]
    rw [List.nodup_append]
    refine ⟨hl, by simp, ?_⟩
    intro x hx hy
    have e : x = u := by simpa using hy
    subst e
    exact hu hx

theorem not_mem_append_toList {l : List Nat} {d : Option Nat} {v : Nat} (hv : v ∉ l)
    (hd : d ≠ some v) : v ∉ l ++ d.toList := by
  rcases d with _ | u
  · simpa using hv
  · have hne : v ≠ u := fun e => hd (by rw [e])
    simp [hv, hne]

/-- One slot of the object store changes and at most one value is deleted. -/
theorem excl_update {m m1 : Mem} (ho : Excl m) (i : Nat) (s : Option (Option Nat))
    (d : Option Nat) (hview : ∀ j, m1.ptr_ j = if j = i then s else m.ptr_ j)
    (hfreed : m1.freed = m.freed ++ d.toList)
    (hs : ∀ v, s = some (some v) →
      (∀ j, j ≠ i → m.ptr_ j ≠ some (some v)) ∧ v ∉ m.freed ∧ d ≠ some v)
    (hd : ∀ u, d = some u → u ∉ m.freed ∧ ∀ j, j ≠ i → m.ptr_ j ≠ some (some u)) :
    Excl m1 := by
  refine ⟨?_, ?_, ?_⟩
  · intro i1 j1 v h1 h2
    rw [hview] at h1 h2
    by_cases e1 : i1 = i <;> by_cases e2 : j1 = i
    · rw [e1, e2]
    · simp [e1] at h1
      simp [e2] at h2
      exact absurd h2 ((hs v h1).1 j1 e2)
    · simp [e1] at h1
      simp [e2] at h2
      exact absurd h1 ((hs v h2).1 i1 e1)
    · simp [e1] at h1
      simp [e2] at h2
      exact ho.uniq i1 j1 v h1 h2
  · intro i1 v h1
    rw [hview] at h1
    rw [hfreed]
    by_cases e1 : i1 = i
    · simp [e1] at h1
      exact not_mem_append_toList (hs v h1).2.1 (hs v h1).2.2
    · simp [e1] at h1
      refine not_mem_append_toList (ho.nofreed i1 v h1) ?_
      intro e
      exact (hd v e).2 i1 e1 h1
  · rw [hfreed]
    exact nodup_append_toList ho.nodup fun u hu => (hd u hu).1

/-- The content of `src` moves to `dst`, whose previous content `d` is deleted. -/
theorem excl_move {m m1 : Mem} (ho : Excl m) (src dst : Nat) (q d : Option Nat)
    (hsrc : m.ptr_ src = some q) (hne : dst ≠ src)
    (hview : ∀ j, m1.ptr_ j
      = if j = src then some none else if j = dst then some q else m.ptr_ j)
    (hfreed : m1.freed = m.freed ++ d.toList)
    (hd : ∀ u, m.ptr_ dst = some (some u) ↔ d = some u) : Excl m1 := by
  refine ⟨?_, ?_, ?_⟩
  · intro i1 j1 v h1 h2
    rw [hview] at h1 h2
    by_cases a1 : i1 = src
    · simp [a1] at h1
    by_cases a2 : j1 = src
    · simp [a2] at h2
    simp only [a1, a2, if_false] at h1 h2
    by_cases e1 : i1 = dst <;> by_cases e2 : j1 = dst
    · rw [e1, e2]
    · simp [e1] at h1
      simp [e2] at h2
      rw [h1] at hsrc
      exact absurd (ho.uniq j1 src v h2 hsrc) a2
    · simp [e1] at h1
      simp [e2] at h2
      rw [h2] at hsrc
      exact absurd (ho.uniq i1 src v h1 hsrc) a1
    · simp [e1] at h1
      simp [e2] at h2
      exact ho.uniq i1 j1 v h1 h2
  · intro i1 v h1
    rw [hview] at h1
    rw [hfreed]
    by_cases a1 : i1 = src
    · simp [a1] at h1
    simp only [a1, if_false] at h1
    by_cases e1 : i1 = dst
    · simp [e1] at h1
      rw [h1] at hsrc
      refine not_mem_append_toList (ho.nofreed src v hsrc) ?_
      intro e
      exact hne (ho.uniq dst src v ((hd v).mpr e) hsrc)
    · simp [e1] at h1
      refine not_mem_append_toList (ho.nofreed i1 v h1) ?_
      intro e
      exact e1 (ho.uniq i1 dst v h1 ((hd v).mpr e))
  · rw [hfreed]
    exact nodup_append_toList ho.nodup fun u hu => ho.nofreed dst u ((hd u).mpr hu)

/-- The object store is read through an involution of the object identities. -/
theorem excl_reindex {m m1 : Mem} (ho : Excl m) (σ : Nat → Nat) (hσ : ∀ j, σ (σ j) = j)
    (hview : ∀ j, m1.ptr_ j = m.ptr_ (σ j)) (hfreed : m1.freed = m.freed) : Excl m1 := by
  refine ⟨?_, ?_, ?_⟩
  · intro i1 j1 v h1 h2
    rw [hview] at h1 h2
    have e := ho.uniq _ _ v h1 h2
    rw [← hσ i1, ← hσ j1, e]
  · intro i1 v h1
    rw [hview] at h1
    rw [hfreed]
    exact ho.nofreed _ v h1
  · rw [hfreed]
    exact ho.nodup

theorem fresh_ptr_ {m : Mem} {v : Nat} (h : m.fresh v) (j : Nat) :
    m.ptr_ j ≠ some (some v) := by
  intro hj
  have hl := ptr__lt hj
  unfold Mem.ptr_ at hj
  rw [List.getElem?_eq_getElem hl] at hj
  have hx : m.objs[j] = some (some v) := by
    rcases hq : m.objs[j] with _ | x
    · rw [hq] at hj
      simp at hj
    · rw [hq] at hj
      simp at hj
      rw [hj]
  exact h.2 _ (List.getElem_mem hl) hx

theorem excl_empty : Excl Mem.empty := by
  refine ⟨?_, ?_, ?_⟩
  · intro i j v h
    simp [Mem.ptr_, Mem.empty] at h
  · intro i v h
    simp [Mem.ptr_, Mem.empty] at h
  · simp [Mem.empty]

theorem excl_ctor {m : Mem} {p : Option Nat} (ho : Excl m)
    (hf : ∀ v, p = some v → m.fresh v) : Excl (ctor m p).1 := by
  refine excl_update ho m.objs.length (some p) none (ptr__newObj m p) (by simp [ctor]) ?_ ?_
  · intro v e
    have e1 : p = some v := by simpa using e
    have hfr := hf v e1
    exact ⟨fun j _ => fresh_ptr_ hfr j, hfr.1, by simp⟩
  · intro u e
    simp at e

theorem excl_ctorMove {m m1 : Mem} {other i : Nat} (ho : Excl m)
    (h : ctorMove m other = some (m1, i)) : Excl m1 := by
  rcases hq : m.ptr_ other with _ | q
  · simp [ctorMove, hq] at h
  simp [ctorMove, hq] at h
  obtain ⟨rfl, -⟩ := h
  have hl := ptr__lt hq
  have hne : m.objs.length ≠ other := fun e => Nat.lt_irrefl _ (e ▸ hl)
  have hnone : m.ptr_ m.objs.length = none := by
    unfold Mem.ptr_
    rw [List.getElem?_eq_none (Nat.le_refl _)]
    rfl
  refine excl_move ho other m.objs.length q none hq hne ?_ (by simp) ?_
  · intro j
    rw [ptr__setPtr_ _ _ _ _ (by simp; omega), ptr__newObj]
  · intro u
    rw [hnone]
    simp

theorem excl_assignMove {m m1 : Mem} {this other : Nat} (ho : Excl m)
    (h : assignMove m this other = some m1) : Excl m1 := by
  rcases hp : m.ptr_ this with _ | p
  · simp [assignMove, hp] at h
  by_cases hne : this = other
  · simp [assignMove, hp, hne] at h
    have hp2 : m.ptr_ other = some p := by rw [← hne]; exact hp
    simp [hp2] at h
    rw [← h]
    exact ho
  · rcases hq : m.ptr_ other with _ | q
    · simp [assignMove, hp, hne, hq] at h
    simp [assignMove, hp, hne, hq] at h
    subst h
    have hl1 := ptr__lt hp
    have hl2 := ptr__lt hq
    refine excl_move ho other this q p hq hne ?_ (by simp [freed_deletePtr]) ?_
    · intro j
      rw [ptr__setPtr_ _ _ _ _ (by simpa using hl2), ptr__setPtr_ _ _ _ _ (by simpa using hl1)]
      simp
    · intro u
      rw [hp]
      simp

theorem excl_Release {m m1 : Mem} {this : Nat} {r : Option Nat} (ho : Excl m)
    (h : Release m this = some (m1, r)) : Excl m1 := by
  rcases hp : m.ptr_ this with _ | p
  · simp [Release, hp] at h
  simp [Release, hp] at h
  obtain ⟨rfl, -⟩ := h
  refine excl_update ho this (some none) none (fun j => ptr__setPtr_ m this j none (ptr__lt hp))
    (by simp) ?_ ?_
  · intro v e
    simp at e
  · intro u e
    simp at e

theorem excl_Reset {m m1 : Mem} {this : Nat} {ptr : Option Nat} (ho : Excl m)
    (hf : ∀ v, ptr = some v → m.fresh v) (h : Reset m this ptr = some m1) : Excl m1 := by
  rcases hp : m.ptr_ this with _ | old
  · simp [Reset, hp] at h
  simp [Reset, hp] at h
  subst h
  refine excl_update ho this (some ptr) old ?_ (by simp [freed_deletePtr]) ?_ ?_
  · intro j
    rw [ptr__deletePtr, ptr__setPtr_ _ _ _ _ (ptr__lt hp)]
  · intro v e
    have e1 : ptr = some v := by simpa using e
    have hfr := hf v e1
    refine ⟨fun j _ => fresh_ptr_ hfr j, hfr.1, ?_⟩
    intro e2
    rw [e2] at hp
    exact fresh_ptr_ hfr this hp
  · intro u e
    rw [e] at hp
    refine ⟨ho.nofreed this u hp, ?_⟩
    intro j hj hpj
    exact hj (ho.uniq j this u hpj hp)

theorem excl_Swap {m m1 : Mem} {this other : Nat} (ho : Excl m)
    (h : Swap m this other = some m1) : Excl m1 := by
  rcases ht : m.ptr_ this with _ | t
  · simp [Swap, ht] at h
  rcases hq : m.ptr_ other with _ | q
  · simp [Swap, ht, hq] at h
  simp [Swap, ht, hq] at h
  subst h
  have hl1 := ptr__lt ht
  have hl2 := ptr__lt hq
  refine excl_reindex ho
    (fun j => if j = other then this else if j = this then other else j) ?_ ?_ (by simp)
  · intro j
    by_cases e1 : j = other <;> by_cases e2 : j = this <;> by_cases e3 : this = other <;>
      simp [e1, e2, e3]
  · intro j
    rw [ptr__setPtr_ _ _ _ _ (by simpa using hl2), ptr__setPtr_ _ _ _ _ hl1]
    by_cases e1 : j = other
    · simp [e1, ht]
    · by_cases e2 : j = this
      · subst e2
        simp [e1, hq]
      · simp [e1, e2]

theorem excl_dtor {m m1 : Mem} {this : Nat} (ho : Excl m) (h : dtor m this = some m1) :
    Excl m1 := by
  rcases hp : m.ptr_ this with _ | p
  · simp [dtor, hp] at h
  simp [dtor, hp] at h
  subst h
  refine excl_update ho this none p ?_ (by simp [freed_deletePtr]) ?_ ?_
  · intro j
    rw [ptr__endObj, ptr__deletePtr]
  · intro v e
    simp at e
  · intro u e
    rw [e] at hp
    refine ⟨ho.nofreed this u hp, ?_⟩
    intro j hj hpj
    exact hj (ho.uniq j this u hpj hp)

theorem excl_step {m m1 : Mem} {op : Op} (ho : Excl m)
    (hf : ∀ v, op.rawArg = some v → m.fresh v) (h : step m op = some m1) : Excl m1 := by
  cases op with
  | ctor pointer =>
    simp only [step, Option.some.injEq] at h
    rw [← h]
    exact excl_ctor ho hf
  | ctorMove other =>
    simp only [step, Option.map_eq_some', Prod.exists, exists_and_right, exists_eq_right] at h
    obtain ⟨i, h⟩ := h
    exact excl_ctorMove ho h
  | assignMove this other => exact excl_assignMove ho h
  | Release this =>
    simp only [step, Option.map_eq_some', Prod.exists, exists_and_right, exists_eq_right] at h
    obtain ⟨r, h⟩ := h
    exact excl_Release ho h
  | Reset this ptr => exact excl_Reset ho hf h
  | Swap this other => exact excl_Swap ho h
  | dtor this => exact excl_dtor ho h

theorem excl_run {ops : List Op} {m m1 : Mem} (ho : Excl m)
    (hf : freshArgs m ops = true) (h : run m ops = some m1) : Excl m1 := by
  induction ops generalizing m with
  | nil =>
    simp [run] at h
    subst h
    exact ho
  | cons op ops ih =>
    simp only [run, Option.bind_eq_some] at h
    obtain ⟨m2, h2, h3⟩ := h
    simp only [freshArgs, h2, Bool.and_eq_true] at hf
    have hfr : ∀ v, op.rawArg = some v → m.fresh v := by
      intro v hv
      have := hf.1
      rw [hv] at this
      simpa using this
    exact ih (excl_step ho hfr h2) hf.2 h3

/-! ## Properties of the specification -/

/-- C15. Self move assignment of `UniquePtr` is a no-op: for every live pointer `p`,
empty or owning a value, `p = std::move(p)` returns with the memory exactly as it
was, so `Get()` returns the same pointer as before and nothing has been freed. -/
theorem self_assignMove_noop (m : Mem) (p : Nat) (q : Option Nat)
    (hp : m.ptr_ p = some q) :
    assignMove m p p = some m ∧ Get m p = some q := by
  refine ⟨?_, hp⟩
  simp [assignMove, hp]

/-- Witness for C15: a pointer owning the value 7. -/
theorem self_assignMove_noop_witness :
    assignMove ⟨[some (some 7)], []⟩ 0 0 = some ⟨[some (some 7)], []⟩ ∧
      Get ⟨[some (some 7)], []⟩ 0 = some (some 7) :=
  self_assignMove_noop ⟨[some (some 7)], []⟩ 0 (some 7) (by decide)

/-- C14, as stated, fails: two `UniquePtr`s constructed from the same raw pointer 7
both own it; the move assignment `b = std::move(a)` deletes the value `b` owned,
which is the value of `a`, so 7 is freed and `b` returns it from `Get()`. -/
theorem assignMove_between_aliases_frees_value :
    run Mem.empty [.ctor (some 7), .ctor (some 7)]
      = some ⟨[some (some 7), some (some 7)], []⟩
    ∧ assignMove ⟨[some (some 7), some (some 7)], []⟩ 1 0
      = some ⟨[some none, some (some 7)], [7]⟩
    ∧ Get ⟨[some none, some (some 7)], [7]⟩ 1 = some (some 7)
    ∧ 7 ∈ (⟨[some none, some (some 7)], [7]⟩ : Mem).freed := by
  decide

/-- C14, amended. Let the live `UniquePtr` `a` own the raw pointer `v` (possibly
null). Move construction from `a` leaves `a` empty (`Get()` null, `bool` false), the
new object returns `v` and nothing is freed. For every other live pointer `b`,
owning `w`, the move assignment `b = std::move(a)` leaves `a` empty and `b`
returning `v`, and frees exactly `w` when it is non-null (one `delete`, nothing
else); so `v` is not freed unless `b` owned the same pointer `v`. -/
theorem move_transfers_ownership (m : Mem) (a : Nat) (v : Option Nat)
    (ha : m.ptr_ a = some v) :
    (∃ m1 c, ctorMove m a = some (m1, c) ∧ c ≠ a ∧
      Get m1 a = some none ∧ operatorBool m1 a = some false ∧ Get m1 c = some v ∧
      m1.freed = m.freed) ∧
    (∀ b w, b ≠ a → m.ptr_ b = some w →
      ∃ m1, assignMove m b a = some m1 ∧
        Get m1 a = some none ∧ operatorBool m1 a = some false ∧ Get m1 b = some v ∧
        m1.freed = m.freed ++ w.toList ∧
        (∀ x, v = some x → w ≠ some x → m1.freed.count x = m.freed.count x)) := by
  have hal := ptr__lt ha
  have hane : a ≠ m.objs.length := Nat.ne_of_lt hal
  have hane2 : ¬ m.objs.length = a := fun e => hane e.symm
  constructor
  · have h1 : ((m.newObj v).1.setPtr_ a none).ptr_ a = some none := by
      rw [ptr__setPtr_ _ _ _ _ (by simp; omega)]
      simp
    have h2 : ((m.newObj v).1.setPtr_ a none).ptr_ m.objs.length = some v := by
      rw [ptr__setPtr_ _ _ _ _ (by simp; omega), ptr__newObj]
      simp [hane2]
    refine ⟨(m.newObj v).1.setPtr_ a none, m.objs.length, by simp [ctorMove, ha], hane2, h1,
      ?_, h2, rfl⟩
    simp [operatorBool, h1]
  · intro b w hne hb
    have hbl := ptr__lt hb
    have h1 : (((m.deletePtr w).setPtr_ b v).setPtr_ a none).ptr_ a = some none := by
      rw [ptr__setPtr_ _ _ _ _ (by simpa using hal)]
      simp
    have h2 : (((m.deletePtr w).setPtr_ b v).setPtr_ a none).ptr_ b = some v := by
      rw [ptr__setPtr_ _ _ _ _ (by simpa using hal), ptr__setPtr_ _ _ _ _ (by simpa using hbl)]
      simp [hne]
    have hf : (((m.deletePtr w).setPtr_ b v).setPtr_ a none).freed = m.freed ++ w.toList := by
      simp [freed_deletePtr]
    refine ⟨((m.deletePtr w).setPtr_ b v).setPtr_ a none, by simp [assignMove, hb, hne, ha],
      h1, ?_, h2, hf, ?_⟩
    · simp [operatorBool, h1]
    · intro x _ hw
      rw [hf]
      rcases w with _ | y
      · simp
      · have hyx : y ≠ x := fun e => hw (by rw [e])
        simp [List.count_singleton, hyx]

/-- Witness for C14 amended: the `Move Constructor` test, where `a` is the only
pointer, and a memory with a second pointer that owns another value. -/
theorem move_transfers_ownership_witness :
    ((∃ m1 c, ctorMove ⟨[some (some 7)], []⟩ 0 = some (m1, c) ∧ c ≠ 0 ∧
      Get m1 0 = some none ∧ operatorBool m1 0 = some false ∧ Get m1 c = some (some 7) ∧
      m1.freed = []) ∧
    (∀ b w, b ≠ 0 → (⟨[some (some 7)], []⟩ : Mem).ptr_ b = some w →
      ∃ m1, assignMove ⟨[some (some 7)], []⟩ b 0 = some m1 ∧
        Get m1 0 = some none ∧ operatorBool m1 0 = some false ∧ Get m1 b = some (some 7) ∧
        m1.freed = [] ++ w.toList ∧
        (∀ x, some 7 = some x → w ≠ some x → m1.freed.count x = List.count x []))) ∧
    ((∃ m1 c, ctorMove ⟨[some (some 7), some (some 8)], []⟩ 0 = some (m1, c) ∧ c ≠ 0 ∧
      Get m1 0 = some none ∧ operatorBool m1 0 = some false ∧ Get m1 c = some (some 7) ∧
      m1.freed = []) ∧
    (∀ b w, b ≠ 0 → (⟨[some (some 7), some (some 8)], []⟩ : Mem).ptr_ b = some w →
      ∃ m1, assignMove ⟨[some (some 7), some (some 8)], []⟩ b 0 = some m1 ∧
        Get m1 0 = some none ∧ operatorBool m1 0 = some false ∧ Get m1 b = some (some 7) ∧
        m1.freed = [] ++ w.toList ∧
        (∀ x, some 7 = some x → w ≠ some x → m1.freed.count x = List.count x []))) :=
  ⟨move_transfers_ownership ⟨[some (some 7)], []⟩ 0 (some 7) (by decide),
    move_transfers_ownership ⟨[some (some 7), some (some 8)], []⟩ 0 (some 7) (by decide)⟩

/-- C16. `UniquePtr::Release`: on a live pointer whose `ptr_` is `q` it returns `q`,
leaves the pointer empty (`Get()` null, `bool` false) and frees nothing; when the
pointer was empty the memory is exactly as before; when it owned `v`, one `delete v`
by the caller followed by the destruction of the pointer frees `v` exactly once
(the only new entry of the log is `v`). -/
theorem Release_hands_over (m : Mem) (p : Nat) (q : Option Nat) (hp : m.ptr_ p = some q) :
    ∃ m1, Release m p = some (m1, q) ∧
      (q = none → m1 = m) ∧
      Get m1 p = some none ∧ operatorBool m1 p = some false ∧ m1.freed = m.freed ∧
      (∀ v, q = some v →
        ∃ m2, dtor (m1.deletePtr (some v)) p = some m2 ∧ m2.freed = m.freed ++ [v] ∧
          m2.freed.count v = m.freed.count v + 1) := by
  have hpl := ptr__lt hp
  have h1 : (m.setPtr_ p none).ptr_ p = some none := by
    rw [ptr__setPtr_ _ _ _ _ hpl]
    simp
  refine ⟨m.setPtr_ p none, by simp [Release, hp], ?_, h1, ?_, rfl, ?_⟩
  · intro e
    subst e
    exact setPtr__self hp
  · simp [operatorBool, h1]
  · intro v _
    have h2 : ((m.setPtr_ p none).deletePtr (some v)).ptr_ p = some none := by
      simpa using h1
    refine ⟨(((m.setPtr_ p none).deletePtr (some v)).deletePtr none).endObj p,
      by simp [dtor, h2], ?_, ?_⟩
    · simp [Mem.deletePtr]
    · simp [Mem.deletePtr]

/-- Witness for C16: the `Release` test on a pointer owning the value 7. -/
theorem Release_hands_over_witness :
    ∃ m1, Release ⟨[some (some 7)], []⟩ 0 = some (m1, some 7) ∧
      (some 7 = none → m1 = ⟨[some (some 7)], []⟩) ∧
      Get m1 0 = some none ∧ operatorBool m1 0 = some false ∧ m1.freed = [] ∧
      (∀ v, some 7 = some v →
        ∃ m2, dtor (m1.deletePtr (some v)) 0 = some m2 ∧ m2.freed = [] ++ [v] ∧
          m2.freed.count v = List.count v [] + 1) :=
  Release_hands_over ⟨[some (some 7)], []⟩ 0 (some 7) (by decide)

/-- C17. `UniquePtr::Reset` replaces ownership: on a live pointer owning `v1`
(possibly null), `Reset(v2)` with any raw pointer `v2` (possibly null) leaves
`Get() == v2` and `bool(p) == (v2 != null)`, and the call frees exactly `v1` when it
is non-null (one `delete`) and nothing when the pointer was empty. -/
theorem Reset_replaces (m : Mem) (p : Nat) (v1 v2 : Option Nat) (hp : m.ptr_ p = some v1) :
    ∃ m1, Reset m p v2 = some m1 ∧
      Get m1 p = some v2 ∧ operatorBool m1 p = some v2.isSome ∧
      m1.freed = m.freed ++ v1.toList ∧ (v1 = none → m1.freed = m.freed) := by
  have hpl := ptr__lt hp
  have h1 : ((m.setPtr_ p v2).deletePtr v1).ptr_ p = some v2 := by
    rw [ptr__deletePtr, ptr__setPtr_ _ _ _ _ hpl]
    simp
  have hf : ((m.setPtr_ p v2).deletePtr v1).freed = m.freed ++ v1.toList := by
    simp [freed_deletePtr]
  refine ⟨(m.setPtr_ p v2).deletePtr v1, by simp [Reset, hp], h1, ?_, hf, ?_⟩
  · simp [operatorBool, h1]
  · intro e
    rw [hf, e]
    simp

/-- Witness for C17: the `Reset` test, a pointer owning 1 is reset to 2. -/
theorem Reset_replaces_witness :
    ∃ m1, Reset ⟨[some (some 1)], []⟩ 0 (some 2) = some m1 ∧
      Get m1 0 = some (some 2) ∧ operatorBool m1 0 = some (some 2).isSome ∧
      m1.freed = [] ++ (some 1).toList ∧ (some 1 = none → m1.freed = []) :=
  Reset_replaces ⟨[some (some 1)], []⟩ 0 (some 1) (some 2) (by decide)

/-- C18, as stated, fails: `Reset` with the raw pointer the object already owns
stores the pointer and then deletes it, so the object still returns from `Get()` a
value that has been freed, and destroying the object deletes it a second time. -/
theorem reset_to_owned_value_dangles :
    run Mem.empty [.ctor (some 7), .Reset 0 (some 7)] = some ⟨[some (some 7)], [7]⟩
    ∧ Get ⟨[some (some 7)], [7]⟩ 0 = some (some 7)
    ∧ 7 ∈ (⟨[some (some 7)], [7]⟩ : Mem).freed
    ∧ run Mem.empty [.ctor (some 7), .Reset 0 (some 7), .dtor 0] = some ⟨[none], [7, 7]⟩ := by
  decide

/-- C18, amended. When every raw pointer handed to the constructor or to `Reset(raw)`
is null or a fresh allocation at that moment, then after every operation of a run
(construction, move construction, move assignment, `Release`, `Reset`, `Swap`,
destruction) no live `UniquePtr` returns from `Get()` a value that has been freed,
no two live pointers own the same value, and no value has been freed more than
once, whichever pointers have been destroyed so far. -/
theorem no_owner_of_freed_value (ops : List Op) (m : Mem)
    (h : run Mem.empty ops = some m) (hf : freshArgs Mem.empty ops = true) :
    (∀ i v, Get m i = some (some v) → v ∉ m.freed) ∧
    (∀ i j v, Get m i = some (some v) → Get m j = some (some v) → i = j) ∧
    m.freed.Nodup := by
  have ho := excl_run excl_empty hf h
  exact ⟨ho.nofreed, ho.uniq, ho.nodup⟩

/-- Witness for C18 amended: move assignment, `Reset`, `Release`, `Swap` and one
destruction; two values freed once each, one still owned. -/
theorem no_owner_of_freed_value_witness :
    run Mem.empty [.ctor (some 1), .ctor (some 2), .assignMove 1 0, .Reset 0 (some 3),
        .Release 1, .Swap 0 1, .Reset 1 (some 4), .dtor 0]
      = some ⟨[none, some (some 4)], [2, 3]⟩
    ∧ (∀ i v, Get ⟨[none, some (some 4)], [2, 3]⟩ i = some (some v) → v ∉ [2, 3])
    ∧ (∀ i j v, Get ⟨[none, some (some 4)], [2, 3]⟩ i = some (some v) →
        Get ⟨[none, some (some 4)], [2, 3]⟩ j = some (some v) → i = j)
    ∧ [2, 3].Nodup :=
  ⟨by decide,
    no_owner_of_freed_value
      [.ctor (some 1), .ctor (some 2), .assignMove 1 0, .Reset 0 (some 3), .Release 1,
        .Swap 0 1, .Reset 1 (some 4), .dtor 0]
      ⟨[none, some (some 4)], [2, 3]⟩ (by decide) (by decide)⟩

end UniquePtr
